import Mathlib

/-!
Verification development for the built-in-ai repository: a shallow embedding
of the tool-calling polyfill layer (fence scanning, tool-call payload parsing,
argument-span extraction, and the streaming/non-streaming generation drivers)
together with proofs about the embedded definitions.

Strings are modelled as `List Char` internally, with `String` wrappers where
the source API takes strings.  JavaScript machine details that the embedded
functions depend on (the regex whitespace class, leftmost-greedy matching)
are modelled explicitly below.
-/

namespace BuiltInAI

/-- The JavaScript regex whitespace class (the class that a `\s` atom in a
JavaScript regular expression matches). -/
def isJsSpace (c : Char) : Bool :=
  c = ' ' || c = '\t' || c = '\n' || c = '\r' || c.val = 0x0b || c.val = 0x0c ||
  c.val = 0xa0 || c.val = 0x1680 || (0x2000 ≤ c.val && c.val ≤ 0x200a) ||
  c.val = 0x2028 || c.val = 0x2029 || c.val = 0x202f || c.val = 0x205f ||
  c.val = 0x3000 || c.val = 0xfeff

/-- Length of the longest all-whitespace prefix, i.e. how much a greedy
regex atom matching whitespace consumes at the head of the list. -/
def csp : List Char → Nat
  | [] => 0
  | c :: cs => if isJsSpace c then csp cs + 1 else 0

/-- The literal part of the `arguments` key pattern in
`extractArgumentsContent`, namely the character sequence of the quoted key. -/
def argsLit : List Char :=
  ['"', 'a', 'r', 'g', 'u', 'm', 'e', 'n', 't', 's', '"']

/-- Attempt of the pattern matching the quoted `arguments` key, whitespace,
a colon and trailing whitespace at the head of the list; returns the length
of the match (greedy in both whitespace runs, as the JavaScript regex is). -/
def matchKeyAt (l : List Char) : Option Nat :=
  if l.take 11 = argsLit then
    let r1 := l.drop 11
    let w1 := csp r1
    match r1.drop w1 with
    | ':' :: r2 => some (11 + w1 + 1 + csp r2)
    | _ => none
  else none

/-- Leftmost match of the `arguments`-key pattern: returns the index just
past the end of the match (the `startIndex` of `extractArgumentsContent`). -/
def findArgsKey : List Char → Option Nat
  | [] => none
  | l@(_ :: tl) =>
    match matchKeyAt l with
    | some m => some m
    | none => (findArgsKey tl).map (· + 1)

/-- The started portion of the character loop of `extractArgumentsContent`
(source: part_004 lines 95-136): depth counting with string-and-escape
awareness; the loop appends each character before examining it and stops
right after the bracket that brings the depth from 1 to 0. -/
def extractLoop : List Char → Nat → Bool → Bool → List Char
  | [], _, _, _ => []
  | c :: cs, depth, inString, escaped =>
    if escaped then c :: extractLoop cs depth inString false
    else if c = '\\' then c :: extractLoop cs depth inString true
    else if c = '"' then c :: extractLoop cs depth (!inString) escaped
    else if inString then c :: extractLoop cs depth inString escaped
    else if c = '\x7b' || c = '[' then c :: extractLoop cs (depth + 1) inString escaped
    else if c = '\x7d' || c = ']' then
      if depth = 1 then [c]
      else c :: extractLoop cs (depth - 1) inString escaped
    else c :: extractLoop cs depth inString escaped

/-- The not-yet-started portion of the loop of `extractArgumentsContent`:
whitespace is copied without starting; the first non-whitespace character
starts the scan, with depth 1 exactly when it is an opening brace/bracket. -/
def extractAfterKey : List Char → List Char
  | [] => []
  | c :: cs =>
    if isJsSpace c then c :: extractAfterKey cs
    else if c = '\x7b' || c = '[' then c :: extractLoop cs 1 false false
    else c :: extractLoop cs 0 false false

/-- List-level embedding of `extractArgumentsContent`
(source: part_004 lines 82-139). -/
def extractArgumentsContentL (content : List Char) : List Char :=
  match findArgsKey content with
  | none => []
  | some st => extractAfterKey (content.drop st)

/-- String wrapper for `extractArgumentsContent`. -/
def extractArgumentsContent (content : String) : String :=
  String.mk (extractArgumentsContentL content.data)

/-- Attempt of the tool-name pattern at the head of the list: an opening
brace, whitespace, the quoted `name` key, whitespace, a colon, whitespace,
then a quoted nonempty name (the capture group).  Models the regex of
`extractToolName` (source: part_004 lines 73-80). -/
def matchNameAt (l : List Char) : Option (List Char) :=
  match l with
  | '\x7b' :: r0 =>
    let r1 := r0.drop (csp r0)
    if ['"', 'n', 'a', 'm', 'e', '"'].isPrefixOf r1 then
      let r2 := r1.drop 6
      let r3 := r2.drop (csp r2)
      match r3 with
      | ':' :: r4 =>
        let r5 := r4.drop (csp r4)
        match r5 with
        | '"' :: r6 =>
          let run := r6.takeWhile (· ≠ '"')
          if run ≠ [] ∧ r6.drop run.length ≠ [] then some run else none
        | _ => none
      | _ => none
    else none
  | _ => none

/-- Leftmost match of the tool-name pattern over the whole list. -/
def extractToolNameL : List Char → Option (List Char)
  | [] => none
  | l@(_ :: tl) =>
    match matchNameAt l with
    | some run => some run
    | none => extractToolNameL tl

/-- String wrapper for `extractToolName` (source: part_004 lines 73-80). -/
def extractToolName (content : String) : Option String :=
  (extractToolNameL content.data).map String.mk

example :
    extractArgumentsContent "\x7b\"name\":\"x\",\"arguments\":\x7b\"a\":1\x7d\x7d"
      = "\x7b\"a\":1\x7d" := by decide

example :
    extractArgumentsContent "\x7b\"name\":\"x\",\"arguments\": \x7b\"s\":\"a\x7db\"\x7d\x7d"
      = "\x7b\"s\":\"a\x7db\"\x7d" := by decide

example : extractToolName "\x7b\"name\":\"get_weather\",\"arg" = some "get_weather" := by
  decide

example : extractToolName "\x7b\"arguments\":\x7b\x7d,\"name\":\"x\"\x7d" = none := by
  decide

/-- Scan predicate for a balanced argument token: running the depth/string/
escape scan of `extractLoop` from the given state closes (depth reaches 0 via
a closing bracket) exactly at the last character of the list. -/
def closesWith : List Char → Nat → Bool → Bool → Bool
  | [], _, _, _ => false
  | c :: cs, depth, inString, escaped =>
    if escaped then closesWith cs depth inString false
    else if c = '\\' then closesWith cs depth inString true
    else if c = '"' then closesWith cs depth (!inString) escaped
    else if inString then closesWith cs depth inString escaped
    else if c = '\x7b' || c = '[' then closesWith cs (depth + 1) inString escaped
    else if c = '\x7d' || c = ']' then
      if depth = 1 then cs.isEmpty
      else closesWith cs (depth - 1) inString escaped
    else closesWith cs depth inString escaped

theorem cons_prefix_cons {a b : List Char} (c : Char) (h : a <+: b) :
    c :: a <+: c :: b := by
  obtain ⟨t, rfl⟩ := h
  exact ⟨t, rfl⟩

theorem extractLoop_pref (cs : List Char) :
    ∀ (t : List Char) (d : Nat) (i e : Bool),
      extractLoop cs d i e <+: extractLoop (cs ++ t) d i e := by
  induction cs with
  | nil => intro t d i e; exact List.nil_prefix
  | cons c cs ih =>
    intro t d i e
    simp only [extractLoop, List.cons_append, List.append_eq]
    split_ifs <;>
      first
        | exact cons_prefix_cons c (ih t _ _ _)
        | exact List.prefix_refl _

theorem extractLoop_closes (cs : List Char) :
    ∀ (t : List Char) (d : Nat) (i e : Bool),
      closesWith cs d i e = true → extractLoop (cs ++ t) d i e = cs := by
  induction cs with
  | nil => intro t d i e h; simp [closesWith] at h
  | cons c cs ih =>
    intro t d i e h
    simp only [closesWith] at h
    simp only [extractLoop, List.cons_append, List.append_eq]
    split_ifs at h ⊢ <;>
      first
        | (rw [ih t _ _ _ h])
        | (rw [List.isEmpty_iff] at h; rw [h])
        | rfl

theorem extractAfterKey_pref (l : List Char) :
    ∀ t : List Char, extractAfterKey l <+: extractAfterKey (l ++ t) := by
  induction l with
  | nil => intro t; exact List.nil_prefix
  | cons c cs ih =>
    intro t
    simp only [extractAfterKey, List.cons_append, List.append_eq]
    split_ifs <;>
      first
        | exact cons_prefix_cons c (ih t)
        | exact cons_prefix_cons c (extractLoop_pref cs t _ _ _)

theorem csp_le_length (l : List Char) : csp l ≤ l.length := by
  induction l with
  | nil => simp [csp]
  | cons c cs ih =>
    simp only [csp, List.length_cons]
    split_ifs <;> omega

theorem csp_append (l t : List Char) :
    csp (l ++ t) = if csp l = l.length then l.length + csp t else csp l := by
  induction l with
  | nil => simp [csp]
  | cons c cs ih =>
    have hle := csp_le_length cs
    by_cases hc : isJsSpace c
    · have h1 : csp (c :: cs ++ t) = csp (cs ++ t) + 1 := by
        simp [csp, hc]
      have h2 : csp (c :: cs) = csp cs + 1 := by simp [csp, hc]
      rw [h1, h2, ih, List.length_cons]
      by_cases h3 : csp cs = cs.length
      · rw [if_pos h3, if_pos (by omega)]
        omega
      · rw [if_neg h3, if_neg (by omega)]
    · have h1 : csp (c :: cs ++ t) = 0 := by simp [csp, hc]
      have h2 : csp (c :: cs) = 0 := by simp [csp, hc]
      rw [h1, h2, List.length_cons, if_neg (by omega)]

theorem csp_lt_head (l : List Char) (h : csp l < l.length) :
    ∃ c r, l.drop (csp l) = c :: r ∧ isJsSpace c = false := by
  induction l with
  | nil => simp at h
  | cons c cs ih =>
    by_cases hc : isJsSpace c
    · have hcs : csp (c :: cs) = csp cs + 1 := by simp [csp, hc]
      rw [hcs]
      have : csp cs < cs.length := by
        rw [hcs] at h; simpa using h
      simpa using ih this
    · have hcs : csp (c :: cs) = 0 := by simp [csp, hc]
      rw [hcs]
      exact ⟨c, cs, rfl, by simpa using hc⟩

theorem csp_eq_length_all (l : List Char) :
    csp l = l.length ↔ l.all isJsSpace = true := by
  induction l with
  | nil => simp [csp]
  | cons c cs ih =>
    have hle := csp_le_length cs
    by_cases hc : isJsSpace c
    · have h2 : csp (c :: cs) = csp cs + 1 := by simp [csp, hc]
      rw [h2, List.length_cons, List.all_cons]
      have h3 : csp cs + 1 = cs.length + 1 ↔ csp cs = cs.length := by omega
      rw [h3, ih]
      simp [hc]
    · have h2 : csp (c :: cs) = 0 := by simp [csp, hc]
      rw [h2, List.length_cons, List.all_cons]
      simp [hc]

theorem matchKeyAt_bounds {l : List Char} {m : Nat} (h : matchKeyAt l = some m) :
    12 ≤ m ∧ m ≤ l.length := by
  simp only [matchKeyAt] at h
  split at h
  · rename_i htake
    split at h
    · rename_i r2 heq
      rw [Option.some_inj] at h
      have h11 : 11 ≤ l.length := by
        have hlen := congrArg List.length htake
        simp [argsLit] at hlen
        omega
      have hlen2 := congrArg List.length heq
      simp only [List.length_drop, List.length_cons] at hlen2
      have hc2 := csp_le_length r2
      have hc1 := csp_le_length (l.drop 11)
      simp only [List.length_drop] at hc1
      omega
    · simp at h
  · simp at h

theorem matchKeyAt_stable {l : List Char} {m : Nat} (t : List Char)
    (h : matchKeyAt l = some m) (hlt : m < l.length) :
    matchKeyAt (l ++ t) = some m := by
  have hb := matchKeyAt_bounds h
  simp only [matchKeyAt] at h ⊢
  split at h
  · rename_i htake
    split at h
    · rename_i r2 heq
      rw [Option.some_inj] at h
      have h11 : 11 ≤ l.length := by omega
      have htake' : (l ++ t).take 11 = argsLit := by
        rw [List.take_append_of_le_length h11, htake]
      have hdrop' : (l ++ t).drop 11 = l.drop 11 ++ t :=
        List.drop_append_of_le_length h11
      have hlt1 : csp (l.drop 11) < (l.drop 11).length := by
        by_contra hge
        push_neg at hge
        rw [List.drop_eq_nil_of_le hge] at heq
        cases heq
      have hcsp' : csp (l.drop 11 ++ t) = csp (l.drop 11) := by
        rw [csp_append, if_neg (by omega)]
      have hdrop2 : (l.drop 11 ++ t).drop (csp (l.drop 11)) = ':' :: (r2 ++ t) := by
        rw [List.drop_append_of_le_length (le_of_lt hlt1), heq]
        rfl
      have hlen2 := congrArg List.length heq
      simp only [List.length_drop, List.length_cons] at hlen2
      have hxlen : (l.drop 11).length = l.length - 11 := by simp
      have hr2 : csp r2 < r2.length := by omega
      have hcsp2 : csp (r2 ++ t) = csp r2 := by
        rw [csp_append, if_neg (by omega)]
      rw [if_pos htake', hdrop', hcsp', hdrop2]
      simp only [hcsp2]
      rw [Option.some_inj]
      omega
    · simp at h
  · simp at h

theorem matchKeyAt_none_some_struct {l t : List Char} {m : Nat}
    (h0 : matchKeyAt l = none) (h1 : matchKeyAt (l ++ t) = some m)
    (h11 : 11 ≤ l.length) :
    l.take 11 = argsLit ∧ (l.drop 11).all isJsSpace = true := by
  have htake' : (l ++ t).take 11 = l.take 11 := List.take_append_of_le_length h11
  have htakeLit : l.take 11 = argsLit := by
    simp only [matchKeyAt] at h1
    by_contra hne
    rw [if_neg (by rw [htake']; exact hne)] at h1
    cases h1
  refine ⟨htakeLit, ?_⟩
  rcases Nat.lt_or_ge (csp (l.drop 11)) (l.drop 11).length with hlt | hge
  · exfalso
    obtain ⟨c, r, hdr, hcsp_c⟩ := csp_lt_head (l.drop 11) hlt
    have hdrop' : (l ++ t).drop 11 = l.drop 11 ++ t :=
      List.drop_append_of_le_length h11
    have hcsp' : csp (l.drop 11 ++ t) = csp (l.drop 11) := by
      rw [csp_append, if_neg (by omega)]
    have hdrop2 : (l.drop 11 ++ t).drop (csp (l.drop 11)) = c :: (r ++ t) := by
      rw [List.drop_append_of_le_length (le_of_lt hlt), hdr]
      rfl
    simp only [matchKeyAt] at h0 h1
    rw [if_pos (by rw [htake']; exact htakeLit), hdrop', hcsp', hdrop2] at h1
    rw [if_pos htakeLit, hdr] at h0
    split at h1
    · rename_i r2 heq
      have hcq : c = ':' := by
        injection heq with hcq _
      rw [hcq] at h0
      simp at h0
    · cases h1
  · exact (csp_eq_length_all _).mp (le_antisymm (csp_le_length _) hge)

theorem matchKeyAt_none_append {l t : List Char} {m : Nat}
    (h0 : matchKeyAt l = none) (h1 : matchKeyAt (l ++ t) = some m) :
    l.length < m := by
  rcases Nat.lt_or_ge l.length 12 with hsmall | hbig
  · have := (matchKeyAt_bounds h1).1
    omega
  · have h11 : 11 ≤ l.length := by omega
    obtain ⟨htake, hall⟩ := matchKeyAt_none_some_struct h0 h1 h11
    have htake' : (l ++ t).take 11 = argsLit := by
      rw [List.take_append_of_le_length h11, htake]
    have hdrop' : (l ++ t).drop 11 = l.drop 11 ++ t :=
      List.drop_append_of_le_length h11
    have hxeq : csp (l.drop 11) = (l.drop 11).length := (csp_eq_length_all _).mpr hall
    have hcsp' : csp (l.drop 11 ++ t) = (l.drop 11).length + csp t := by
      rw [csp_append, if_pos hxeq]
    simp only [matchKeyAt] at h1
    rw [if_pos htake', hdrop', hcsp'] at h1
    split at h1
    · rename_i r2 heq
      rw [Option.some_inj] at h1
      have hxlen : (l.drop 11).length = l.length - 11 := by simp
      omega
    · cases h1

theorem findArgsKey_bounds : ∀ {l : List Char} {e : Nat},
    findArgsKey l = some e → 12 ≤ e ∧ e ≤ l.length := by
  intro l
  induction l with
  | nil => intro e h; simp [findArgsKey] at h
  | cons c tl ih =>
    intro e h
    simp only [findArgsKey] at h
    cases hmk : matchKeyAt (c :: tl) with
    | some m =>
      rw [hmk] at h
      simp only [Option.some_inj] at h
      subst h
      exact matchKeyAt_bounds hmk
    | none =>
      rw [hmk] at h
      simp only [Option.map_eq_some'] at h
      obtain ⟨e', he', rfl⟩ := h
      have := ih he'
      simp only [List.length_cons]
      omega

def argsTail : List Char := ['a', 'r', 'g', 'u', 'm', 'e', 'n', 't', 's', '"']

theorem argsLit_eq : argsLit = '"' :: argsTail := rfl

theorem matchKeyAt_cons_ne {c : Char} (l : List Char) (h : c ≠ '"') :
    matchKeyAt (c :: l) = none := by
  have hneg : ¬ ((c :: l).take 11 = argsLit) := by
    have ht : (c :: l).take 11 = c :: l.take 10 := rfl
    rw [ht, argsLit]
    intro hcontra
    injection hcontra with h1 _
    exact h h1
  simp only [matchKeyAt]
  rw [if_neg hneg]

theorem findArgsKey_cons_ne {c : Char} (l : List Char) (h : c ≠ '"') :
    findArgsKey (c :: l) = (findArgsKey l).map (· + 1) := by
  simp [findArgsKey, matchKeyAt_cons_ne l h]

theorem findArgsKey_spaces : ∀ {w : List Char},
    w.all isJsSpace = true → findArgsKey w = none := by
  intro w
  induction w with
  | nil => intro _; rfl
  | cons b bs ih =>
    intro h
    simp only [List.all_cons, Bool.and_eq_true] at h
    have hb : b ≠ '"' := by
      intro hb
      rw [hb] at h
      exact absurd h.1 (by decide)
    rw [findArgsKey_cons_ne bs hb, ih h.2]
    rfl

theorem matchKeyAt_quote_spaces {w : List Char} (hw : w.all isJsSpace = true) :
    matchKeyAt ('"' :: w) = none := by
  have hneg : ¬ (('"' :: w).take 11 = argsLit) := by
    cases w with
    | nil => decide
    | cons b bs =>
      intro hcontra
      have ht : ('"' :: b :: bs).take 11 = '"' :: b :: bs.take 9 := rfl
      rw [ht, argsLit] at hcontra
      injection hcontra with _ h2
      injection h2 with hb _
      simp only [List.all_cons, Bool.and_eq_true] at hw
      rw [hb] at hw
      exact absurd hw.1 (by decide)
  simp only [matchKeyAt]
  rw [if_neg hneg]

theorem findArgsKey_quote_spaces {w : List Char} (hw : w.all isJsSpace = true) :
    findArgsKey ('"' :: w) = none := by
  simp [findArgsKey, matchKeyAt_quote_spaces hw, findArgsKey_spaces hw]

theorem findArgsKey_argsTail (w : List Char) (hw : w.all isJsSpace = true) :
    findArgsKey (argsTail ++ w) = none := by
  simp only [argsTail, List.cons_append, List.nil_append]
  rw [findArgsKey_cons_ne _ (by decide)]
  rw [findArgsKey_cons_ne _ (by decide)]
  rw [findArgsKey_cons_ne _ (by decide)]
  rw [findArgsKey_cons_ne _ (by decide)]
  rw [findArgsKey_cons_ne _ (by decide)]
  rw [findArgsKey_cons_ne _ (by decide)]
  rw [findArgsKey_cons_ne _ (by decide)]
  rw [findArgsKey_cons_ne _ (by decide)]
  rw [findArgsKey_cons_ne _ (by decide)]
  rw [findArgsKey_quote_spaces hw]
  rfl

theorem findArgsKey_stable : ∀ {l : List Char} {e : Nat} (v : List Char),
    findArgsKey l = some e → e < l.length → findArgsKey (l ++ v) = some e := by
  intro l
  induction l with
  | nil => intro e v h _; simp [findArgsKey] at h
  | cons c tl ih =>
    intro e v h hlt
    simp only [findArgsKey] at h
    rw [List.cons_append]
    simp only [findArgsKey]
    cases hmk : matchKeyAt (c :: tl) with
    | some m =>
      rw [hmk, Option.some_inj] at h
      subst h
      have hst := matchKeyAt_stable v hmk hlt
      rw [List.cons_append] at hst
      rw [hst]
    | none =>
      rw [hmk] at h
      simp only [Option.map_eq_some'] at h
      obtain ⟨e', he', rfl⟩ := h
      have he'lt : e' < tl.length := by
        simp only [List.length_cons] at hlt
        omega
      have hrec := ih v he' he'lt
      cases hmk2 : matchKeyAt (c :: (tl ++ v)) with
      | none =>
        rw [hrec]
        rfl
      | some m =>
        exfalso
        have hmk2' : matchKeyAt ((c :: tl) ++ v) = some m := by
          rw [List.cons_append]
          exact hmk2
        have hmlt : (c :: tl).length < m := matchKeyAt_none_append hmk hmk2'
        rcases Nat.lt_or_ge ((c :: tl).length) 11 with hsm | hbg
        · have hb := findArgsKey_bounds he'
          simp only [List.length_cons] at hsm
          omega
        · obtain ⟨htake, hall⟩ := matchKeyAt_none_some_struct hmk hmk2' hbg
          have hdec : c :: tl = argsLit ++ (c :: tl).drop 11 := by
            conv_lhs => rw [← List.take_append_drop 11 (c :: tl)]
            rw [htake]
          rw [argsLit_eq, List.cons_append] at hdec
          injection hdec with _ htl
          rw [htl, findArgsKey_argsTail _ hall] at he'
          cases he'

theorem extractArgumentsContentL_pref (u v : List Char) :
    extractArgumentsContentL u <+: extractArgumentsContentL (u ++ v) := by
  cases hf : findArgsKey u with
  | none =>
    simp only [extractArgumentsContentL, hf]
    exact List.nil_prefix
  | some e =>
    obtain ⟨h12, hle⟩ := findArgsKey_bounds hf
    rcases Nat.lt_or_ge e u.length with hlt | hge
    · have hf2 := findArgsKey_stable v hf hlt
      simp only [extractArgumentsContentL, hf, hf2]
      rw [List.drop_append_of_le_length (le_of_lt hlt)]
      exact extractAfterKey_pref _ v
    · have hdrop : u.drop e = [] := List.drop_eq_nil_of_le hge
      simp only [extractArgumentsContentL, hf, hdrop, extractAfterKey]
      exact List.nil_prefix

/-- C1: for an input containing the `arguments` key (the leftmost
greedy match of the key pattern ending exactly where the value starts)
followed by a value opening with a brace or bracket whose
string-and-escape-aware depth scan closes exactly at its last character,
`extractArgumentsContent` returns exactly that value, regardless of what
follows it — in particular an argument value whose strings contain
braces, brackets, or escaped quotes is extracted exactly. -/
theorem extractArguments_exact (p t : String) (c : Char) (s' : List Char)
    (hfind : findArgsKey (p.data ++ (c :: s') ++ t.data) = some p.data.length)
    (hc : c = '\x7b' ∨ c = '[')
    (hclose : closesWith s' 1 false false = true) :
    extractArgumentsContent (p ++ String.mk (c :: s') ++ t) = String.mk (c :: s') := by
  have hdata : (p ++ String.mk (c :: s') ++ t).data = p.data ++ (c :: s') ++ t.data := by
    simp [String.data_append]
  unfold extractArgumentsContent
  rw [hdata]
  rw [List.append_assoc] at hfind ⊢
  simp only [extractArgumentsContentL, hfind]
  rw [List.drop_left]
  simp only [List.cons_append, extractAfterKey]
  have hnsp : ¬ (isJsSpace c = true) := by
    rcases hc with h | h <;> rw [h] <;> decide
  have hbr : (c = '\x7b' || c = '[') = true := by
    rcases hc with h | h <;> rw [h] <;> decide
  rw [if_neg hnsp, if_pos hbr]
  have hcl := extractLoop_closes s' t.data 1 false false hclose
  rw [show s'.append t.data = s' ++ t.data from rfl, hcl]

/-- Witness for C1 at a concrete input whose argument value is an object
containing a string with a closing brace inside it. -/
theorem extractArguments_exact_witness :
    extractArgumentsContent
        ("\x7b\"name\":\"x\",\"arguments\":" ++ String.mk ('\x7b' :: "\"a\":\"b\x7d\"\x7d".data) ++ "\x7d")
      = String.mk ('\x7b' :: "\"a\":\"b\x7d\"\x7d".data) :=
  extractArguments_exact "\x7b\"name\":\"x\",\"arguments\":" "\x7d" '\x7b' "\"a\":\"b\x7d\"\x7d".data
    (by decide) (by decide) (by decide)

/-! JSON values and a model of the JSON.parse / JSON.stringify builtins. -/

/-- JSON values as handled by the JavaScript runtime the source runs on. -/
inductive JVal where
  | null
  | bool (b : Bool)
  | num (n : Int)
  | str (s : String)
  | arr (xs : List JVal)
  | obj (fs : List (String × JVal))
deriving Repr

/-- Whether a JSON value is the null value. -/
def JVal.isNull : JVal → Bool
  | .null => true
  | _ => false

/-- JSON whitespace (the four whitespace characters of the JSON grammar). -/
def jwsp (c : Char) : Bool := c = ' ' || c = '\t' || c = '\n' || c = '\r'

def skipJws (l : List Char) : List Char := l.dropWhile jwsp

/-- JSON string body parser (called after the opening quote), with the
common escape sequences. -/
def pStrAux : List Char → List Char → Option (String × List Char)
  | [], _ => none
  | '"' :: r, acc => some (String.mk acc.reverse, r)
  | '\\' :: e :: r, acc =>
    if e = '"' then pStrAux r ('"' :: acc)
    else if e = '\\' then pStrAux r ('\\' :: acc)
    else if e = '/' then pStrAux r ('/' :: acc)
    else if e = 'n' then pStrAux r ('\n' :: acc)
    else if e = 't' then pStrAux r ('\t' :: acc)
    else if e = 'r' then pStrAux r ('\r' :: acc)
    else if e = 'b' then pStrAux r ('\x08' :: acc)
    else if e = 'f' then pStrAux r ('\x0c' :: acc)
    else none
  | c :: r, acc => pStrAux r (c :: acc)

def natOfDigits : List Char → Nat → Nat
  | [], acc => acc
  | d :: r, acc => natOfDigits r (acc * 10 + (d.toNat - 48))

def pNat (l : List Char) : Option (Nat × List Char) :=
  let ds := l.takeWhile Char.isDigit
  if ds.isEmpty then none
  else some (natOfDigits ds 0, l.drop ds.length)

mutual

/-- Modelled from the spec: the JSON.parse builtin used by the source (not
itself repository code).  The model covers objects, arrays, strings with the
common escapes, integer numerals and the three literals; inputs outside this
fragment are rejected, which the callers treat like a parse error. -/
def pVal : Nat → List Char → Option (JVal × List Char)
  | 0, _ => none
  | fuel + 1, l =>
    match skipJws l with
    | '\x7b' :: r =>
      match skipJws r with
      | '\x7d' :: r2 => some (JVal.obj [], r2)
      | _ => pPairs fuel r []
    | '[' :: r =>
      match skipJws r with
      | ']' :: r2 => some (JVal.arr [], r2)
      | _ => pElems fuel r []
    | '"' :: r => (pStrAux r []).map (fun p => (JVal.str p.1, p.2))
    | 't' :: 'r' :: 'u' :: 'e' :: r => some (JVal.bool true, r)
    | 'f' :: 'a' :: 'l' :: 's' :: 'e' :: r => some (JVal.bool false, r)
    | 'n' :: 'u' :: 'l' :: 'l' :: r => some (JVal.null, r)
    | '-' :: r => (pNat r).map (fun p => (JVal.num (-(p.1 : Int)), p.2))
    | c :: r =>
      if c.isDigit then (pNat (c :: r)).map (fun p => (JVal.num (p.1 : Int), p.2))
      else none
    | [] => none

def pPairs : Nat → List Char → List (String × JVal) → Option (JVal × List Char)
  | 0, _, _ => none
  | fuel + 1, l, acc =>
    match skipJws l with
    | '"' :: r =>
      match pStrAux r [] with
      | none => none
      | some (k, r2) =>
        match skipJws r2 with
        | ':' :: r3 =>
          match pVal fuel r3 with
          | none => none
          | some (v, r4) =>
            match skipJws r4 with
            | ',' :: r5 => pPairs fuel r5 (acc ++ [(k, v)])
            | '\x7d' :: r5 => some (JVal.obj (acc ++ [(k, v)]), r5)
            | _ => none
        | _ => none
    | _ => none

def pElems : Nat → List Char → List JVal → Option (JVal × List Char)
  | 0, _, _ => none
  | fuel + 1, l, acc =>
    match pVal fuel l with
    | none => none
    | some (v, r) =>
      match skipJws r with
      | ',' :: r2 => pElems fuel r2 (acc ++ [v])
      | ']' :: r2 => some (JVal.arr (acc ++ [v]), r2)
      | _ => none

end

/-- Modelled from the spec: JSON.parse (see `pVal`); a non-empty remainder
after the value is a parse error, as in the builtin. -/
def jsonParse (s : String) : Option JVal :=
  match pVal (2 * s.length + 2) s.data with
  | some (v, rest) => if (skipJws rest).isEmpty then some v else none
  | none => none

def jstrEsc : List Char → List Char
  | [] => []
  | c :: r =>
    (if c = '"' then ['\\', '"']
     else if c = '\\' then ['\\', '\\']
     else if c = '\n' then ['\\', 'n']
     else if c = '\t' then ['\\', 't']
     else if c = '\r' then ['\\', 'r']
     else if c = '\x08' then ['\\', 'b']
     else if c = '\x0c' then ['\\', 'f']
     else [c]) ++ jstrEsc r

mutual

/-- Modelled from the spec: the JSON.stringify builtin (no spacing,
insertion order of fields preserved). -/
def jstr : JVal → String
  | .null => "null"
  | .bool true => "true"
  | .bool false => "false"
  | .num n => toString n
  | .str s => "\"" ++ String.mk (jstrEsc s.data) ++ "\""
  | .arr xs => "[" ++ String.intercalate "," (jstrList xs) ++ "]"
  | .obj fs => "\x7b" ++ String.intercalate "," (jstrFields fs) ++ "\x7d"

def jstrList : List JVal → List String
  | [] => []
  | v :: r => jstr v :: jstrList r

def jstrFields : List (String × JVal) → List String
  | [] => []
  | (k, v) :: r => ("\"" ++ String.mk (jstrEsc k.data) ++ "\":" ++ jstr v) :: jstrFields r

end

/-- Object field lookup with JavaScript semantics for duplicate keys
(the later occurrence wins, as JSON.parse builds objects by assignment). -/
def lookupLast (fs : List (String × JVal)) (k : String) : Option JVal :=
  (fs.reverse.find? (fun p => p.1 = k)).map (fun p => p.2)

/-- JavaScript property access on a parsed value: defined only on objects. -/
def jGet (v : JVal) (k : String) : Option JVal :=
  match v with
  | .obj fs => lookupLast fs k
  | _ => none

example : jsonParse "\x7b\"a\": [1, -2], \"s\": \"x\\\"y\"\x7d"
    = some (.obj [("a", .arr [.num 1, .num (-2)]), ("s", .str "x\"y")]) := rfl

example : jstr (.obj [("a", .arr [.num 1, .num (-2)]), ("s", .str "x\"y")])
    = "\x7b\"a\":[1,-2],\"s\":\"x\\\"y\"\x7d" := rfl

/-! Embedding of parseToolCallRequest
(source: src/packages/built-in-ai/src/tool-calling-polyfill.ts lines 42-96). -/

/-- JS String.prototype.trim: strips the whitespace class from both ends. -/
def jsTrim (s : String) : String :=
  String.mk (((s.data.dropWhile isJsSpace).reverse.dropWhile isJsSpace).reverse)

/-- Index of the first occurrence of a (nonempty) pattern as a sublist. -/
def findSub (pat : List Char) : List Char → Option Nat
  | [] => none
  | l@(_ :: tl) =>
    if pat.isPrefixOf l then some 0
    else (findSub pat tl).map (· + 1)

/-- Model of the markdown-fence regex of parseToolCallRequest: the first
three-backtick marker, an optional `json` tag, then the lazily shortest
group up to the next marker.  Returns the raw text between the markers when
the capture group is truthy (the group excludes leading whitespace, so it is
truthy exactly when the in-between text has a non-whitespace character); the
caller trims the result, so the in-between text stands for the group. -/
def mdCandidate (response : List Char) : Option (List Char) :=
  match findSub "```".data response with
  | none => none
  | some i =>
    let after := response.drop (i + 3)
    let afterJson := if "json".data.isPrefixOf after then after.drop 4 else after
    match findSub "```".data afterJson with
    | none => none
    | some j =>
      let grp := afterJson.take j
      if grp.any (fun c => !(isJsSpace c)) then some grp else none

/-- The replace of the trailing underscore/whitespace run in
parseToolCallRequest (the hallucination cleanup before the parse attempts). -/
def stripTrailingUnderscoreWs (l : List Char) : List Char :=
  (l.reverse.dropWhile (fun c => c = '_' || isJsSpace c)).reverse

/-- Whether the first cleanup pattern (a closing brace, whitespace, a run of
extra closing braces, then only whitespace to the end) matches at the head. -/
def cleanup1MatchAt (l : List Char) : Bool :=
  match l with
  | '\x7d' :: r =>
    let r1 := r.drop (csp r)
    let braces := r1.takeWhile (· = '\x7d')
    if braces.isEmpty then false
    else (r1.drop braces.length).all isJsSpace
  | _ => false

/-- Index of the leftmost match of the first cleanup pattern. -/
def cleanup1From : List Char → Option Nat
  | [] => none
  | l@(_ :: tl) =>
    if cleanup1MatchAt l then some 0 else (cleanup1From tl).map (· + 1)

/-- First repair of parseToolCallRequest: replace a trailing run of extra
closing braces by a single closing brace. -/
def cleanup1 (l : List Char) : List Char :=
  match cleanup1From l with
  | none => l
  | some i => l.take i ++ ['\x7d']

/-- Second repair of parseToolCallRequest: the global replace turning a
closing bracket, comma, opening brace sequence into a comma and opening
brace (repairing a missing comma between adjacent array elements). -/
def cleanup2Go : Nat → List Char → List Char
  | 0, l => l
  | fuel + 1, l =>
    match l with
    | [] => []
    | c :: r =>
      if c = ']' then
        match (r.drop (csp r)) with
        | ',' :: r2 =>
          match (r2.drop (csp r2)) with
          | '\x7b' :: r4 => ',' :: ' ' :: '\x7b' :: cleanup2Go fuel r4
          | _ => c :: cleanup2Go fuel r
        | _ => c :: cleanup2Go fuel r
      else c :: cleanup2Go fuel r

def cleanup2 (l : List Char) : List Char := cleanup2Go (l.length + 1) l

/-- A tool call in the provider format built by parseToolCallRequest;
`none` in a field models a JavaScript undefined. -/
structure ToolCallV2 where
  toolCallId : String
  toolName : Option String
  input : Option String
deriving Repr, DecidableEq

/-- Result type of parseToolCallRequest. -/
structure ParsedToolCallV2 where
  toolCalls : List ToolCallV2
  rawResponse : String
deriving Repr, DecidableEq

/-- The tool_calls check of parseToolCallRequest: the parsed value must be
an object whose tool_calls property is a non-empty array (property access on
a parsed null throws, which the catch treats as a failed attempt). -/
def toolCallsField (v : JVal) : Option (List JVal) :=
  match v with
  | .obj fs =>
    match lookupLast fs "tool_calls" with
    | some (.arr l) => if l.isEmpty then none else some l
    | _ => none
  | _ => none

/-- Conversion of one parsed tool-call object to the provider format
(source lines 75-82): a falsy id falls back to a generated id built from the
index and the current time, which is passed in as `now`. -/
def convertCall (now : Nat) (idx : Nat) (call : JVal) : ToolCallV2 :=
  { toolCallId :=
      match jGet call "id" with
      | some (.str s) => if s.isEmpty then "call_" ++ toString idx ++ "_" ++ toString now else s
      | _ => "call_" ++ toString idx ++ "_" ++ toString now
    toolName :=
      match jGet call "name" with
      | some (.str s) => some s
      | _ => none
    input := (jGet call "input").map jstr }

/-- One parse attempt of parseToolCallRequest: JSON.parse the cleaned text
and convert when the tool_calls check passes; any throw inside the try
(parse error, property access on null) makes the attempt fail. -/
def attemptParse (now : Nat) (s : List Char) : Option (List ToolCallV2) :=
  match jsonParse (String.mk s) with
  | none => none
  | some v =>
    match toolCallsField v with
    | none => none
    | some l =>
      if l.any JVal.isNull then none
      else some (l.enum.map (fun p => convertCall now p.1 p.2))

/-- The cleaned text parseToolCallRequest feeds to its parse attempts:
markdown-fence extraction when present, then the trim and the trailing
underscore/whitespace strip. -/
def prepToolCallJson (response : String) : List Char :=
  let base :=
    match mdCandidate response.data with
    | some grp => (jsTrim (String.mk grp)).data
    | none => (jsTrim response).data
  stripTrailingUnderscoreWs base

/-- Embedding of parseToolCallRequest
(source: tool-calling-polyfill.ts lines 42-96).  `now` stands for the
Date.now() timestamp used in generated fallback ids. -/
def parseToolCallRequest (now : Nat) (response : String) : Option ParsedToolCallV2 :=
  let jsonToParse := prepToolCallJson response
  match [jsonToParse, cleanup1 jsonToParse, cleanup2 jsonToParse].findSome?
      (attemptParse now) with
  | some calls => some { toolCalls := calls, rawResponse := response }
  | none => none

example :
    parseToolCallRequest 7 "\x7b\"tool_calls\": [\x7b\"name\": \"getWeather\", \"input\": \x7b\"city\": \"SF\"\x7d\x7d]\x7d"
      = some { toolCalls := [{ toolCallId := "call_0_7", toolName := some "getWeather",
                               input := some "\x7b\"city\":\"SF\"\x7d" }],
               rawResponse := "\x7b\"tool_calls\": [\x7b\"name\": \"getWeather\", \"input\": \x7b\"city\": \"SF\"\x7d\x7d]\x7d" } := by
  rfl

example :
    parseToolCallRequest 7 "\x7b\"tool_calls\": [\x7b\"name\": \"x\", \"input\": \x7b\x7d\x7d]\x7d\x7d"
      = some { toolCalls := [{ toolCallId := "call_0_7", toolName := some "x",
                               input := some "\x7b\x7d" }],
               rawResponse := "\x7b\"tool_calls\": [\x7b\"name\": \"x\", \"input\": \x7b\x7d\x7d]\x7d\x7d" } := by
  rfl

example : parseToolCallRequest 7 "hello there" = none := by rfl

/-- C4: parseToolCallRequest never raises to the caller: every throw site
inside its try is modelled as a failed attempt.  It tries the strict parse of
the cleaned text first, then the trailing-brace strip and the missing-comma
repair in that fixed order, retrying the parse after each; it returns the
conversion of the first attempt whose parsed value has a non-empty
tool_calls array, and null when every attempt fails that check. -/
theorem parseToolCallRequest_resolution (now : Nat) (s : String) :
    (parseToolCallRequest now s = none ↔
      (attemptParse now (prepToolCallJson s) = none ∧
       attemptParse now (cleanup1 (prepToolCallJson s)) = none ∧
       attemptParse now (cleanup2 (prepToolCallJson s)) = none)) ∧
    (∀ calls, attemptParse now (prepToolCallJson s) = some calls →
      parseToolCallRequest now s = some { toolCalls := calls, rawResponse := s }) ∧
    (∀ calls, attemptParse now (prepToolCallJson s) = none →
      attemptParse now (cleanup1 (prepToolCallJson s)) = some calls →
      parseToolCallRequest now s = some { toolCalls := calls, rawResponse := s }) ∧
    (∀ calls, attemptParse now (prepToolCallJson s) = none →
      attemptParse now (cleanup1 (prepToolCallJson s)) = none →
      attemptParse now (cleanup2 (prepToolCallJson s)) = some calls →
      parseToolCallRequest now s = some { toolCalls := calls, rawResponse := s }) := by
  unfold parseToolCallRequest
  cases h0 : attemptParse now (prepToolCallJson s) <;>
    cases h1 : attemptParse now (cleanup1 (prepToolCallJson s)) <;>
      cases h2 : attemptParse now (cleanup2 (prepToolCallJson s)) <;>
        simp [List.findSome?, h0, h1, h2]

/-! Model of the JSON tool-call payload parser of the WebLLM provider.
The tool-calling module itself is not under src/ (only its caller is), so
the parser is modelled from the spec, section 4.2. -/

/-- A parsed tool call of the WebLLM provider (spec section 3): the id is
assigned by the caller (the parser leaves it empty). -/
structure ParsedToolCall where
  toolCallId : String
  toolName : String
  args : JVal
deriving Repr

/-- Result of the payload parser (spec section 4.2). -/
structure ParsedCalls where
  toolCalls : List ParsedToolCall
  textContent : String
deriving Repr

/-- Index of the first opening brace or bracket. -/
def firstBraceIdx : List Char → Option Nat
  | [] => none
  | c :: tl =>
    if c = '\x7b' || c = '[' then some 0 else (firstBraceIdx tl).map (· + 1)

/-- Modelled from the spec: the trailing-stray-brace repair of the payload
parser — try the strict parse, then drop one trailing closing brace
(after trailing whitespace) at a time and retry. -/
def tryParsePayload : Nat → List Char → Option JVal
  | 0, _ => none
  | fuel + 1, l =>
    match jsonParse (String.mk l) with
    | some v => some v
    | none =>
      let l' := (l.reverse.dropWhile isJsSpace).reverse
      match l'.getLast? with
      | some '\x7d' => tryParsePayload fuel l'.dropLast
      | _ => none

/-- Modelled from the spec: extraction of one tool call from a parsed
payload object — the declared name plus the `arguments` (or `input`)
sub-object, which defaults to an empty object. -/
def callOfObj (v : JVal) : Option ParsedToolCall :=
  match jGet v "name" with
  | some (.str n) =>
    some { toolCallId := ""
           toolName := n
           args := ((jGet v "arguments").orElse (fun _ => jGet v "input")).getD (.obj []) }
  | _ => none

/-- Modelled from the spec: a payload is a single tool-call object or an
array of them. -/
def callsOfJVal (v : JVal) : Option (List ParsedToolCall) :=
  match v with
  | .obj _ => (callOfObj v).map (fun c => [c])
  | .arr l =>
    if (l.filterMap callOfObj).isEmpty then none
    else some (l.filterMap callOfObj)
  | _ => none

/-- Modelled from the spec: `parseJsonFunctionCalls` from the tool-calling
module (code not under src/; spec section 4.2).  Free text before the
payload becomes `textContent`; the payload is the balanced token starting at
the first brace/bracket (which skips fence markers, since they contain no
braces, and leaves trailing garbage such as stray closing braces outside the
token); when nothing resolves, the whole text is plain text with zero tool
calls. -/
def balancedToken : List Char → List Char
  | [] => []
  | c :: cs => c :: extractLoop cs 1 false false

def parseJsonFunctionCalls (text : String) : ParsedCalls :=
  match firstBraceIdx text.data with
  | none => { toolCalls := [], textContent := text }
  | some i =>
    match tryParsePayload ((balancedToken (text.data.drop i)).length + 1)
        (balancedToken (text.data.drop i)) with
    | none => { toolCalls := [], textContent := text }
    | some v =>
      match callsOfJVal v with
      | some calls =>
        { toolCalls := calls, textContent := jsTrim (String.mk (text.data.take i)) }
      | none => { toolCalls := [], textContent := text }

example :
    (parseJsonFunctionCalls "\x7b\"name\":\"x\",\"arguments\":\x7b\x7d\x7d\x7d").toolCalls.length = 1 := by
  rfl

example :
    (parseJsonFunctionCalls "hello \x7b\"name\":\"x\",\"arguments\":\x7b\"a\":1\x7d\x7d").textContent
      = "hello" := by rfl

example : (parseJsonFunctionCalls "just some text").toolCalls.isEmpty = true := by rfl

/-- When the payload parser resolves no tool call, the whole input is the
text content (spec section 4.2: degrade to plain text). -/
theorem parseJsonFunctionCalls_empty_text (text : String)
    (h : (parseJsonFunctionCalls text).toolCalls.isEmpty = true) :
    (parseJsonFunctionCalls text).textContent = text := by
  unfold parseJsonFunctionCalls at h ⊢
  split at h
  · rfl
  · rename_i i hidx
    split at h
    · rfl
    · rename_i v hv
      split at h
      · rename_i calls hcalls
        exfalso
        unfold callsOfJVal at hcalls
        split at hcalls
        · simp only [Option.map_eq_some'] at hcalls
          obtain ⟨c, _, rfl⟩ := hcalls
          simp at h
        · split at hcalls
          · cases hcalls
          · rename_i hne
            rw [Option.some_inj] at hcalls
            rw [hcalls] at hne
            simp only [List.isEmpty_iff] at h
            rw [h] at hne
            simp at hne
        · cases hcalls
      · rfl

/-! Non-streaming generation content assembly of both providers. -/

/-- A content part of the WebLLM non-streaming result. -/
inductive ContentW where
  | text (t : String)
  | toolCall (id : String) (name : String) (input : String)
deriving Repr, DecidableEq

/-- Embedding of the content and finish-reason assembly of WebLLM
doGenerate after the model reply arrives (source: part_004 lines 420-503).
`respJson` records whether the caller chose strict-JSON response mode; as in
the source it only selects the request's response_format and does not alter
the response handling, which always runs the payload parser. -/
def doGenerateContent (respJson : Bool) (raw : String) (finishRaw : String) :
    List ContentW × String :=
  if (parseJsonFunctionCalls raw).toolCalls.isEmpty then
    ([ContentW.text (if (parseJsonFunctionCalls raw).textContent.isEmpty then raw
        else (parseJsonFunctionCalls raw).textContent)],
     if finishRaw = "abort" then "other" else "stop")
  else
    ((if (parseJsonFunctionCalls raw).textContent.isEmpty then []
        else [ContentW.text (parseJsonFunctionCalls raw).textContent]) ++
       ((parseJsonFunctionCalls raw).toolCalls.take 1).map
         (fun c => ContentW.toolCall c.toolCallId c.toolName (jstr c.args)),
     "tool-calls")

/-- A content part of the built-in Prompt API provider result. -/
inductive ContentV2 where
  | text (t : String)
  | toolCall (c : ToolCallV2)
deriving Repr, DecidableEq

/-- Embedding of the content assembly of the built-in provider
doGenerateWithTools (source: part_006 lines 360-409): every parsed tool call
is pushed into the content. -/
def doGenerateWithToolsContent (now : Nat) (text : String) :
    List ContentV2 × String :=
  match parseToolCallRequest now text with
  | some pr => (pr.toolCalls.map ContentV2.toolCall, "tool-calls")
  | none => ([ContentV2.text text], "stop")

/-- Events of the built-in provider stream. -/
inductive EvV2 where
  | streamStart
  | textStart (id : String)
  | textDelta (id : String) (d : String)
  | textEnd (id : String)
  | toolCall (c : ToolCallV2)
  | finish (reason : String)
deriving Repr, DecidableEq

/-- Embedding of the event sequence of the built-in provider
doStreamWithTools (source: part_006 lines 590-683), which buffers the whole
response before parsing and then emits every parsed tool call. -/
def doStreamWithToolsEvents (now : Nat) (response : String) : List EvV2 :=
  match parseToolCallRequest now response with
  | none =>
    [EvV2.streamStart, EvV2.textStart "text-0", EvV2.textDelta "text-0" response,
     EvV2.textEnd "text-0", EvV2.finish "stop"]
  | some pr =>
    EvV2.streamStart :: (pr.toolCalls.map EvV2.toolCall ++ [EvV2.finish "tool-calls"])

def countToolCallsW (l : List ContentW) : Nat :=
  (l.filter (fun p => match p with | .toolCall _ _ _ => true | _ => false)).length

def countToolCallsV2 (l : List ContentV2) : Nat :=
  (l.filter (fun p => match p with | .toolCall _ => true | _ => false)).length

def countToolCallEvsV2 (l : List EvV2) : Nat :=
  (l.filter (fun p => match p with | .toolCall _ => true | _ => false)).length

theorem countToolCallsV2_map (l : List ToolCallV2) :
    countToolCallsV2 (l.map ContentV2.toolCall) = l.length := by
  induction l with
  | nil => rfl
  | cons a r ih =>
    simp only [countToolCallsV2, List.map_cons, List.filter_cons] at ih ⊢
    simp [ih]

theorem countToolCallEvsV2_map (l : List ToolCallV2) :
    countToolCallEvsV2 (l.map EvV2.toolCall) = l.length := by
  induction l with
  | nil => rfl
  | cons a r ih =>
    simp only [countToolCallEvsV2, List.map_cons, List.filter_cons] at ih ⊢
    simp [ih]

/-- C5 counterexample: a payload with two tool calls fed to the built-in
provider generation path yields two surfaced tool calls, refuting the claim
that every generation path surfaces only the first one. -/
theorem firstOnly_counterexample :
    ¬ (countToolCallsV2 (doGenerateWithToolsContent 7
        "\x7b\"tool_calls\":[\x7b\"name\":\"a\",\"input\":\x7b\x7d\x7d,\x7b\"name\":\"b\",\"input\":\x7b\x7d\x7d]\x7d").1 ≤ 1) := by
  decide

/-- C8 counterexample: in strict-JSON response mode the WebLLM doGenerate
path still runs tool-call detection, so a JSON response that itself has the
tool-call payload shape is not returned as unmodified text with zero tool
calls. -/
theorem jsonMode_bypass_counterexample :
    doGenerateContent true "\x7b\"name\":\"x\",\"arguments\":\x7b\x7d\x7d" "stop"
      ≠ ([ContentW.text "\x7b\"name\":\"x\",\"arguments\":\x7b\x7d\x7d"], "stop") := by
  decide

/-- C8 as amended: strict-JSON response mode changes nothing about the
response handling of doGenerate (it only selects the request format), and a
response on which the payload parser resolves no tool call is returned as
the full unmodified text with zero tool calls. -/
theorem jsonMode_no_bypass :
    (∀ (raw finishRaw : String),
        doGenerateContent true raw finishRaw = doGenerateContent false raw finishRaw) ∧
    (∀ (raw finishRaw : String),
        (parseJsonFunctionCalls raw).toolCalls.isEmpty = true →
        doGenerateContent true raw finishRaw
          = ([ContentW.text raw], if finishRaw = "abort" then "other" else "stop")) := by
  refine ⟨fun _ _ => rfl, ?_⟩
  intro raw finishRaw h
  unfold doGenerateContent
  rw [if_pos h]
  have ht := parseJsonFunctionCalls_empty_text raw h
  by_cases he : (parseJsonFunctionCalls raw).textContent.isEmpty = true
  · simp [he]
  · simp [he, ht]

/-- Witness for the amended C8: a strict-JSON response whose string field
contains the fence-marker text is returned unmodified with zero tool calls
(spec scenario B). -/
theorem jsonMode_no_bypass_witness :
    doGenerateContent true "\x7b\"code\":\"```tool_call\\n\x7b\x7d\\n```\",\"value\":42\x7d" "stop"
      = ([ContentW.text "\x7b\"code\":\"```tool_call\\n\x7b\x7d\\n```\",\"value\":42\x7d"], "stop") := by
  have h := jsonMode_no_bypass.2
    "\x7b\"code\":\"```tool_call\\n\x7b\x7d\\n```\",\"value\":42\x7d" "stop" (by rfl)
  simpa using h

/-- Witness for C4: the repair pipeline on a payload with a trailing extra
closing brace, via the second resolution clause. -/
theorem parseToolCallRequest_resolution_witness :
    parseToolCallRequest 7 "\x7b\"tool_calls\": [\x7b\"name\": \"x\", \"input\": \x7b\x7d\x7d]\x7d\x7d"
      = some { toolCalls := [{ toolCallId := "call_0_7", toolName := some "x",
                               input := some "\x7b\x7d" }],
               rawResponse := "\x7b\"tool_calls\": [\x7b\"name\": \"x\", \"input\": \x7b\x7d\x7d]\x7d\x7d" } :=
  (parseToolCallRequest_resolution 7
      "\x7b\"tool_calls\": [\x7b\"name\": \"x\", \"input\": \x7b\x7d\x7d]\x7d\x7d").2.2.1
    [{ toolCallId := "call_0_7", toolName := some "x", input := some "\x7b\x7d" }]
    (by rfl) (by rfl)

/-! Embedding of convertToBuiltInAIMessages
(source: src/packages/built-in-ai/src/convert-to-built-in-ai-messages.ts).
File parts, whose conversion is binary data handling outside the embedded
fragment, are not represented. -/

/-- An assistant-message content part of the provider prompt. -/
inductive V2AsstPart where
  | text (t : String)
  | toolCall (id : String) (name : String) (input : String)
deriving Repr, DecidableEq

/-- A tool-result part of a tool-role message. -/
structure ToolResultPart where
  toolName : String
  toolCallId : String
  output : JVal
deriving Repr

/-- A message of the provider prompt. -/
inductive V2Msg where
  | system (content : String)
  | user (texts : List String)
  | assistant (parts : List V2AsstPart)
  | tool (results : List ToolResultPart)
deriving Repr

/-- Content of a built-in-AI message: assistant and tool-result messages
carry a string, user messages an array of content parts. -/
inductive BIContent where
  | str (s : String)
  | parts (ps : List String)
deriving Repr, DecidableEq

/-- A message in the built-in Prompt API format. -/
structure BIMsg where
  role : String
  content : BIContent
deriving Repr, DecidableEq

/-- The assistant-message loop of convertToBuiltInAIMessages (lines
119-139): text parts concatenate, tool-call parts JSON.parse their input (a
parse failure throws out of the whole conversion) and accumulate. -/
def asstFold : List V2AsstPart → String → List (String × String × JVal) →
    Except String (String × List (String × String × JVal))
  | [], text, calls => .ok (text, calls)
  | .text t :: r, text, calls => asstFold r (text ++ t) calls
  | .toolCall id name input :: r, text, calls =>
    match jsonParse input with
    | none => .error "Failed to parse tool-call input"
    | some v => asstFold r text (calls ++ [(id, name, v)])

/-- The serialized assistant tool-call content (lines 141-144). -/
def toolCallsJson (calls : List (String × String × JVal)) : String :=
  jstr (.obj [("tool_calls", .arr (calls.map (fun c =>
    .obj [("id", .str c.1), ("name", .str c.2.1), ("input", c.2.2)])))])

/-- Assistant case of convertToBuiltInAIMessages: when any tool call is
present, the serialized tool-call JSON replaces the accumulated text. -/
def convertAssistant (parts : List V2AsstPart) : Except String String :=
  match asstFold parts "" [] with
  | .error e => .error e
  | .ok (text, calls) => .ok (if calls.isEmpty then text else toolCallsJson calls)

/-- Tool-role formatting (lines 154-174). -/
def formatToolResultMsg (results : List ToolResultPart) : String :=
  "Tool results:\n" ++ String.intercalate "\n\n" (results.map (fun r =>
    "Tool: " ++ r.toolName ++ " (ID: " ++ r.toolCallId ++ ")\nResult: " ++
      (match r.output with
       | .str s => s
       | v => jstr v)))

def convertGo : List V2Msg → Option String → List BIMsg →
    Except String (Option String × List BIMsg)
  | [], sys, msgs => .ok (sys, msgs)
  | .system s :: r, _, msgs => convertGo r (some s) msgs
  | .user ts :: r, sys, msgs =>
    convertGo r sys (msgs ++ [{ role := "user", content := .parts ts }])
  | .assistant ps :: r, sys, msgs =>
    match convertAssistant ps with
    | .error e => .error e
    | .ok s => convertGo r sys (msgs ++ [{ role := "assistant", content := .str s }])
  | .tool rs :: r, sys, msgs =>
    convertGo r sys (msgs ++ [{ role := "user", content := .str (formatToolResultMsg rs) }])

/-- Embedding of convertToBuiltInAIMessages (lines 58-183). -/
def convertToBuiltInAIMessages (prompt : List V2Msg) :
    Except String (Option String × List BIMsg) :=
  convertGo prompt none []

/-- The tool-call parts of an assistant message, in order. -/
def asstToolCalls (parts : List V2AsstPart) : List (String × String × String) :=
  parts.filterMap (fun p =>
    match p with
    | .toolCall id n i => some (id, n, i)
    | _ => none)

/-- The tool-call parts with their inputs parsed. -/
def asstParsedCalls (parts : List V2AsstPart) : List (String × String × JVal) :=
  (asstToolCalls parts).map (fun c => (c.1, c.2.1, (jsonParse c.2.2).getD .null))

theorem asstFold_ok (parts : List V2AsstPart)
    (hp : ∀ c ∈ asstToolCalls parts, (jsonParse c.2.2).isSome = true) :
    ∀ (text : String) (calls : List (String × String × JVal)),
      ∃ tx, asstFold parts text calls = .ok (tx, calls ++ asstParsedCalls parts) := by
  induction parts with
  | nil =>
    intro text calls
    exact ⟨text, by simp [asstFold, asstParsedCalls, asstToolCalls]⟩
  | cons p r ih =>
    intro text calls
    cases p with
    | text t =>
      have hp' : ∀ c ∈ asstToolCalls r, (jsonParse c.2.2).isSome = true := by
        intro c hc
        exact hp c (by simpa [asstToolCalls] using hc)
      obtain ⟨tx, htx⟩ := ih hp' (text ++ t) calls
      refine ⟨tx, ?_⟩
      simp only [asstFold, htx]
      have : asstParsedCalls (V2AsstPart.text t :: r) = asstParsedCalls r := by
        simp [asstParsedCalls, asstToolCalls]
      rw [this]
    | toolCall id n i =>
      have hmem : (id, n, i) ∈ asstToolCalls (V2AsstPart.toolCall id n i :: r) := by
        simp [asstToolCalls]
      have hsome := hp _ hmem
      obtain ⟨v, hv⟩ := Option.isSome_iff_exists.mp hsome
      have hp' : ∀ c ∈ asstToolCalls r, (jsonParse c.2.2).isSome = true := by
        intro c hc
        refine hp c ?_
        simp [asstToolCalls]
        right
        simpa [asstToolCalls] using hc
      obtain ⟨tx, htx⟩ := ih hp' text (calls ++ [(id, n, v)])
      refine ⟨tx, ?_⟩
      simp only [asstFold, hv, htx]
      have : asstParsedCalls (V2AsstPart.toolCall id n i :: r)
          = (id, n, v) :: asstParsedCalls r := by
        simp [asstParsedCalls, asstToolCalls, hv]
      rw [this, List.append_assoc]
      rfl

theorem asstToolCalls_filter (parts : List V2AsstPart) :
    asstToolCalls (parts.filter (fun p =>
      match p with | .text _ => false | _ => true)) = asstToolCalls parts := by
  induction parts with
  | nil => rfl
  | cons p r ih =>
    cases p <;> simp [asstToolCalls, List.filter_cons] at ih ⊢ <;> simpa using ih

/-- C10: an assistant message with at least one tool-call part converts to
an assistant message whose entire content is the JSON serialization of the
tool_calls wrapper object; the text parts are discarded rather than
concatenated with it (the result equals the conversion with all text parts
removed). -/
theorem convertToBuiltInAIMessages_toolcalls (parts : List V2AsstPart)
    (hnz : (asstToolCalls parts).isEmpty = false)
    (hp : ∀ c ∈ asstToolCalls parts, (jsonParse c.2.2).isSome = true) :
    convertToBuiltInAIMessages [V2Msg.assistant parts]
        = .ok (none, [{ role := "assistant",
                        content := .str (toolCallsJson (asstParsedCalls parts)) }]) ∧
    convertToBuiltInAIMessages [V2Msg.assistant parts]
        = convertToBuiltInAIMessages
            [V2Msg.assistant (parts.filter (fun p =>
              match p with | .text _ => false | _ => true))] := by
  have hconv : ∀ ps, (asstToolCalls ps).isEmpty = false →
      (∀ c ∈ asstToolCalls ps, (jsonParse c.2.2).isSome = true) →
      convertAssistant ps = .ok (toolCallsJson (asstParsedCalls ps)) := by
    intro ps hnz' hp'
    obtain ⟨tx, htx⟩ := asstFold_ok ps hp' "" []
    unfold convertAssistant
    rw [htx]
    simp only [List.nil_append]
    have hne : asstToolCalls ps ≠ [] := by
      intro hx
      rw [hx] at hnz'
      simp at hnz'
    have hemp : (asstParsedCalls ps).isEmpty = false := by
      unfold asstParsedCalls
      cases hl : asstToolCalls ps with
      | nil => exact absurd hl hne
      | cons a r => simp
    rw [if_neg (by simp [hemp])]
  constructor
  · have h1 := hconv parts hnz hp
    unfold convertToBuiltInAIMessages convertGo
    rw [h1]
    rfl
  · have h1 := hconv parts hnz hp
    have h2 := hconv (parts.filter (fun p =>
        match p with | .text _ => false | _ => true))
      (by rw [asstToolCalls_filter]; exact hnz)
      (by rw [asstToolCalls_filter]; exact hp)
    unfold convertToBuiltInAIMessages convertGo
    rw [h1, h2]
    simp [asstParsedCalls, asstToolCalls_filter]

/-- Witness for C10 at a concrete assistant message with a text part and a
tool-call part: the text is discarded and the content is the serialized
tool_calls object. -/
theorem convertToBuiltInAIMessages_toolcalls_witness :
    convertToBuiltInAIMessages
        [V2Msg.assistant [V2AsstPart.text "thinking...",
                          V2AsstPart.toolCall "id1" "getWeather" "\x7b\"city\":\"SF\"\x7d"]]
      = .ok (none, [{ role := "assistant",
                      content := .str "\x7b\"tool_calls\":[\x7b\"id\":\"id1\",\"name\":\"getWeather\",\"input\":\x7b\"city\":\"SF\"\x7d\x7d]\x7d" }]) := by
  have h := (convertToBuiltInAIMessages_toolcalls
      [V2AsstPart.text "thinking...",
       V2AsstPart.toolCall "id1" "getWeather" "\x7b\"city\":\"SF\"\x7d"]
      (by rfl) (by decide)).1
  rw [h]
  rfl

/-! Per-fence streaming state of WebLLM doStream (source: part_004 lines
696-701) and the incremental tool-input event emission for one fence.  The
fence detector (not under src/) delivers the fence content as a sequence of
safe slices whose concatenation is the complete fence content (modelled from
the spec, section 4.1); the driver state below is from the source. -/

/-- Streaming tool-call state of one fence: `acc` is
accumulatedFenceContent, `streamedLen` is streamedArgumentsLength,
`startEmitted` is toolInputStartEmitted. -/
structure FenceSt where
  acc : List Char
  streamedLen : Nat
  startEmitted : Bool
deriving Repr, DecidableEq

def initFenceSt : FenceSt := { acc := [], streamedLen := 0, startEmitted := false }

/-- Tool-input events of one fence (ids omitted: one fence has one id). -/
inductive FEv where
  | start (name : List Char)
  | delta (d : List Char)
deriving Repr, DecidableEq

/-- The argument-delta block of doStream (lines 879-896, likewise 745-760
and 802-817): re-extract the argument span from the accumulated content,
emit only the suffix past what was already streamed, and record the new
length. -/
def deltaEv (acc : List Char) (sl : Nat) : Nat × List FEv :=
  if (extractArgumentsContentL acc).length > sl then
    ((extractArgumentsContentL acc).length,
     if ((extractArgumentsContentL acc).drop sl).length > 0 then
       [FEv.delta ((extractArgumentsContentL acc).drop sl)]
     else [])
  else (sl, [])

/-- The in-fence incremental branch of doStream (lines 860-899) for one safe
slice: append it, emit tool-input-start once the name regex matches the
accumulated content, then emit any new argument suffix. -/
def fenceStep (st : FenceSt) (chunk : List Char) : FenceSt × List FEv :=
  match extractToolNameL (st.acc ++ chunk), st.startEmitted with
  | some name, false =>
    ({ acc := st.acc ++ chunk,
       streamedLen := (deltaEv (st.acc ++ chunk) st.streamedLen).1,
       startEmitted := true },
     FEv.start name :: (deltaEv (st.acc ++ chunk) st.streamedLen).2)
  | some _, true =>
    ({ acc := st.acc ++ chunk,
       streamedLen := (deltaEv (st.acc ++ chunk) st.streamedLen).1,
       startEmitted := true },
     (deltaEv (st.acc ++ chunk) st.streamedLen).2)
  | none, true =>
    ({ acc := st.acc ++ chunk,
       streamedLen := (deltaEv (st.acc ++ chunk) st.streamedLen).1,
       startEmitted := true },
     (deltaEv (st.acc ++ chunk) st.streamedLen).2)
  | none, false =>
    ({ acc := st.acc ++ chunk, streamedLen := st.streamedLen,
       startEmitted := false }, [])

/-- The head of the fence-close branch (lines 739-760): append the final
safe slice and, when the start event is already out, flush the pending
argument suffix before parsing. -/
def fenceClosePre (st : FenceSt) (lastChunk : List Char) : FenceSt × List FEv :=
  match st.startEmitted with
  | true =>
    ({ acc := st.acc ++ lastChunk,
       streamedLen := (deltaEv (st.acc ++ lastChunk) st.streamedLen).1,
       startEmitted := true },
     (deltaEv (st.acc ++ lastChunk) st.streamedLen).2)
  | false =>
    ({ acc := st.acc ++ lastChunk, streamedLen := st.streamedLen,
       startEmitted := false }, [])

/-- The selected-call body of the fence-close branch for a resolvable tool
call under the current id (lines 792-817): emit tool-input-start from the
parsed call when it was never emitted, then the final catch-up suffix. -/
def fenceCloseCall (st : FenceSt) (name : List Char) : FenceSt × List FEv :=
  match st.startEmitted with
  | true =>
    ({ st with streamedLen := (deltaEv st.acc st.streamedLen).1 },
     (deltaEv st.acc st.streamedLen).2)
  | false =>
    ({ st with startEmitted := true, streamedLen := (deltaEv st.acc st.streamedLen).1 },
     FEv.start name :: (deltaEv st.acc st.streamedLen).2)

/-- Fold of the incremental branch over the fence's inner safe slices. -/
def runFenceSteps : FenceSt → List (List Char) → FenceSt × List FEv
  | st, [] => (st, [])
  | st, c :: r =>
    ((runFenceSteps (fenceStep st c).1 r).1,
     (fenceStep st c).2 ++ (runFenceSteps (fenceStep st c).1 r).2)

/-- One fence of doStream whose payload resolves to a tool call: the inner
safe slices, the final safe slice delivered with the close, and the parsed
tool name. -/
def runFence (chunks : List (List Char)) (lastChunk name : List Char) :
    FenceSt × List FEv :=
  ((fenceCloseCall (fenceClosePre (runFenceSteps initFenceSt chunks).1 lastChunk).1 name).1,
   (runFenceSteps initFenceSt chunks).2 ++
     ((fenceClosePre (runFenceSteps initFenceSt chunks).1 lastChunk).2 ++
       (fenceCloseCall (fenceClosePre (runFenceSteps initFenceSt chunks).1 lastChunk).1 name).2))

/-- Concatenation of the tool-input-delta payloads of a fence run. -/
def joinD (evs : List FEv) : List Char :=
  (evs.filterMap (fun e => match e with | FEv.delta d => some d | _ => none)).join

/-- State invariant of the per-fence streaming state: once the start event
is out, streamedArgumentsLength equals the extracted span's length; before
that it is zero. -/
def GoodF (st : FenceSt) : Prop :=
  (st.startEmitted = true → st.streamedLen = (extractArgumentsContentL st.acc).length) ∧
  (st.startEmitted = false → st.streamedLen = 0)

theorem joinD_append (a b : List FEv) : joinD (a ++ b) = joinD a ++ joinD b := by
  simp [joinD, List.filterMap_append]

theorem joinD_start (name : List Char) (r : List FEv) :
    joinD (FEv.start name :: r) = joinD r := by
  simp [joinD, List.filterMap_cons]

theorem take_eq_of_pref {a b : List Char} (h : a <+: b) (n : Nat)
    (hn : n ≤ a.length) : b.take n = a.take n := by
  obtain ⟨t, rfl⟩ := h
  exact List.take_append_of_le_length hn

theorem deltaEv_len (a b : List Char) (sl : Nat)
    (hpre : extractArgumentsContentL a <+: extractArgumentsContentL b)
    (hsl : sl ≤ (extractArgumentsContentL a).length) :
    (deltaEv b sl).1 = (extractArgumentsContentL b).length := by
  have hle := hpre.length_le
  unfold deltaEv
  by_cases h : (extractArgumentsContentL b).length > sl
  · rw [if_pos h]
  · rw [if_neg h]
    omega

theorem deltaEv_join (a b : List Char) (sl : Nat)
    (hpre : extractArgumentsContentL a <+: extractArgumentsContentL b)
    (hsl : sl ≤ (extractArgumentsContentL a).length) :
    (extractArgumentsContentL a).take sl ++ joinD (deltaEv b sl).2
      = extractArgumentsContentL b := by
  have hle := hpre.length_le
  have htake := take_eq_of_pref hpre sl hsl
  unfold deltaEv
  by_cases h : (extractArgumentsContentL b).length > sl
  · rw [if_pos h]
    have hd : ((extractArgumentsContentL b).drop sl).length > 0 := by
      simp only [List.length_drop]
      omega
    rw [if_pos hd]
    have hj : joinD [FEv.delta ((extractArgumentsContentL b).drop sl)]
        = (extractArgumentsContentL b).drop sl := by
      simp [joinD]
    rw [hj, ← htake]
    exact List.take_append_drop sl _
  · rw [if_neg h]
    have hlen : (extractArgumentsContentL a).length = (extractArgumentsContentL b).length := by
      omega
    have heq : extractArgumentsContentL a = extractArgumentsContentL b :=
      List.IsPrefix.eq_of_length hpre hlen
    have hsl' : sl = (extractArgumentsContentL a).length := by omega
    simp [joinD, heq, hsl', List.take_length]

theorem fenceStep_inv (st : FenceSt) (c : List Char) (hg : GoodF st) :
    GoodF (fenceStep st c).1 ∧
    (fenceStep st c).1.acc = st.acc ++ c ∧
    (extractArgumentsContentL st.acc).take st.streamedLen ++ joinD (fenceStep st c).2
      = (extractArgumentsContentL (fenceStep st c).1.acc).take
          (fenceStep st c).1.streamedLen := by
  have hpre := extractArgumentsContentL_pref st.acc c
  obtain ⟨hg1, hg0⟩ := hg
  have hsl : st.streamedLen ≤ (extractArgumentsContentL st.acc).length := by
    cases hse : st.startEmitted with
    | true => rw [hg1 hse]
    | false => rw [hg0 hse]; omega
  have hlen := deltaEv_len st.acc (st.acc ++ c) st.streamedLen hpre hsl
  have hjoin := deltaEv_join st.acc (st.acc ++ c) st.streamedLen hpre hsl
  cases hname : extractToolNameL (st.acc ++ c) with
  | some name =>
    cases hse : st.startEmitted with
    | false =>
      simp only [fenceStep, hname, hse]
      refine ⟨⟨fun _ => hlen, by simp⟩, by trivial, ?_⟩
      rw [joinD_start, hlen, List.take_length]
      exact hjoin
    | true =>
      simp only [fenceStep, hname, hse]
      refine ⟨⟨fun _ => hlen, by simp⟩, by trivial, ?_⟩
      rw [hlen, List.take_length]
      exact hjoin
  | none =>
    cases hse : st.startEmitted with
    | true =>
      simp only [fenceStep, hname, hse]
      refine ⟨⟨fun _ => hlen, by simp⟩, by trivial, ?_⟩
      rw [hlen, List.take_length]
      exact hjoin
    | false =>
      simp only [fenceStep, hname, hse]
      refine ⟨⟨by simp, fun _ => hg0 hse⟩, by trivial, ?_⟩
      rw [hg0 hse]
      simp [joinD]

theorem fenceClosePre_inv (st : FenceSt) (last : List Char) (hg : GoodF st) :
    GoodF (fenceClosePre st last).1 ∧
    (fenceClosePre st last).1.acc = st.acc ++ last ∧
    (extractArgumentsContentL st.acc).take st.streamedLen ++ joinD (fenceClosePre st last).2
      = (extractArgumentsContentL (fenceClosePre st last).1.acc).take
          (fenceClosePre st last).1.streamedLen := by
  have hpre := extractArgumentsContentL_pref st.acc last
  obtain ⟨hg1, hg0⟩ := hg
  cases hse : st.startEmitted with
  | true =>
    have hsl : st.streamedLen ≤ (extractArgumentsContentL st.acc).length := by
      rw [hg1 hse]
    have hlen := deltaEv_len st.acc (st.acc ++ last) st.streamedLen hpre hsl
    have hjoin := deltaEv_join st.acc (st.acc ++ last) st.streamedLen hpre hsl
    simp only [fenceClosePre, hse]
    refine ⟨⟨fun _ => hlen, by simp⟩, by trivial, ?_⟩
    rw [hlen, List.take_length]
    exact hjoin
  | false =>
    simp only [fenceClosePre, hse]
    refine ⟨⟨by simp, fun _ => hg0 hse⟩, by trivial, ?_⟩
    rw [hg0 hse]
    simp [joinD]

theorem fenceCloseCall_inv (st : FenceSt) (name : List Char) (hg : GoodF st) :
    (fenceCloseCall st name).1.acc = st.acc ∧
    (fenceCloseCall st name).1.startEmitted = true ∧
    GoodF (fenceCloseCall st name).1 ∧
    (extractArgumentsContentL st.acc).take st.streamedLen ++ joinD (fenceCloseCall st name).2
      = extractArgumentsContentL st.acc := by
  have hpre : extractArgumentsContentL st.acc <+: extractArgumentsContentL st.acc :=
    List.prefix_refl _
  obtain ⟨hg1, hg0⟩ := hg
  have hsl : st.streamedLen ≤ (extractArgumentsContentL st.acc).length := by
    cases hse : st.startEmitted with
    | true => rw [hg1 hse]
    | false => rw [hg0 hse]; omega
  have hlen := deltaEv_len st.acc st.acc st.streamedLen hpre hsl
  have hjoin := deltaEv_join st.acc st.acc st.streamedLen hpre hsl
  cases hse : st.startEmitted with
  | true =>
    simp only [fenceCloseCall, hse]
    exact ⟨by trivial, by trivial, ⟨fun _ => hlen, by simp⟩, hjoin⟩
  | false =>
    simp only [fenceCloseCall, hse]
    refine ⟨by trivial, by trivial, ⟨fun _ => hlen, by simp⟩, ?_⟩
    rw [joinD_start]
    exact hjoin

theorem runFenceSteps_inv (chunks : List (List Char)) :
    ∀ st : FenceSt, GoodF st →
      GoodF (runFenceSteps st chunks).1 ∧
      (runFenceSteps st chunks).1.acc = st.acc ++ chunks.join ∧
      (extractArgumentsContentL st.acc).take st.streamedLen
          ++ joinD (runFenceSteps st chunks).2
        = (extractArgumentsContentL (runFenceSteps st chunks).1.acc).take
            (runFenceSteps st chunks).1.streamedLen := by
  induction chunks with
  | nil =>
    intro st hg
    exact ⟨hg, by simp [runFenceSteps], by simp [runFenceSteps, joinD]⟩
  | cons c r ih =>
    intro st hg
    obtain ⟨hg', hacc', heq'⟩ := fenceStep_inv st c hg
    obtain ⟨hgr, haccr, heqr⟩ := ih (fenceStep st c).1 hg'
    refine ⟨hgr, ?_, ?_⟩
    · simp only [runFenceSteps, haccr, hacc', List.join_cons, List.append_assoc]
    · simp only [runFenceSteps, joinD_append, ← List.append_assoc, heq', heqr]

/-- C2: for every partition of a fence's content into safe slices,
concatenating all tool-input-delta payloads that doStream emits for the
fence's tool-call id (incremental emission plus the close-time flush and
catch-up) yields exactly extractArgumentsContent applied to the complete
fence content — no character is emitted twice and none is skipped. -/
theorem argument_deltas_reconstruct (chunks : List (List Char))
    (lastChunk name : List Char) :
    String.mk (joinD (runFence chunks lastChunk name).2)
      = extractArgumentsContent (String.mk (chunks.join ++ lastChunk)) := by
  have hginit : GoodF initFenceSt := ⟨by simp [initFenceSt], fun _ => rfl⟩
  obtain ⟨hg1, hacc1, heq1⟩ := runFenceSteps_inv chunks initFenceSt hginit
  obtain ⟨hg2, hacc2, heq2⟩ :=
    fenceClosePre_inv (runFenceSteps initFenceSt chunks).1 lastChunk hg1
  obtain ⟨hacc3, _, hg3, heq3⟩ :=
    fenceCloseCall_inv (fenceClosePre (runFenceSteps initFenceSt chunks).1 lastChunk).1
      name hg2
  have hJ1 : joinD (runFenceSteps initFenceSt chunks).2
      = (extractArgumentsContentL (runFenceSteps initFenceSt chunks).1.acc).take
          (runFenceSteps initFenceSt chunks).1.streamedLen := by
    simpa [initFenceSt, joinD] using heq1
  have hacc2' : (fenceClosePre (runFenceSteps initFenceSt chunks).1 lastChunk).1.acc
      = chunks.join ++ lastChunk := by
    rw [hacc2, hacc1]
    simp [initFenceSt]
  unfold runFence
  rw [joinD_append, joinD_append, hJ1, ← List.append_assoc, heq2, heq3, hacc2']
  rfl

/-- No tool-input-start event occurs in the list. -/
def noStarts (evs : List FEv) : Bool :=
  evs.all (fun e => match e with | FEv.start _ => false | _ => true)

theorem noStarts_append (a b : List FEv) :
    noStarts (a ++ b) = (noStarts a && noStarts b) := by
  simp [noStarts, List.all_append]

theorem noStarts_deltaEv (b : List Char) (sl : Nat) :
    noStarts (deltaEv b sl).2 = true := by
  unfold deltaEv
  split_ifs <;> simp [noStarts]

theorem fenceStep_acc (st : FenceSt) (c : List Char) :
    (fenceStep st c).1.acc = st.acc ++ c := by
  cases hname : extractToolNameL (st.acc ++ c) <;>
    cases hse : st.startEmitted <;>
      simp [fenceStep, hname, hse]

theorem runFenceSteps_acc (chunks : List (List Char)) :
    ∀ st, (runFenceSteps st chunks).1.acc = st.acc ++ chunks.join := by
  induction chunks with
  | nil => intro st; simp [runFenceSteps]
  | cons c r ih =>
    intro st
    simp only [runFenceSteps, ih, fenceStep_acc, List.join_cons, List.append_assoc]

theorem fenceStep_started (st : FenceSt) (c : List Char)
    (hse : st.startEmitted = true) :
    (fenceStep st c).1.startEmitted = true ∧ noStarts (fenceStep st c).2 = true := by
  cases hname : extractToolNameL (st.acc ++ c) <;>
    simp [fenceStep, hname, hse, noStarts_deltaEv]

theorem fenceStep_unstarted (st : FenceSt) (c : List Char)
    (hse : st.startEmitted = false) :
    ((fenceStep st c).1.startEmitted = false ∧ (fenceStep st c).2 = []) ∨
    ((fenceStep st c).1.startEmitted = true ∧
      ∃ nm ds, (fenceStep st c).2 = FEv.start nm :: ds ∧ noStarts ds = true ∧
        extractToolNameL (st.acc ++ c) = some nm) := by
  cases hname : extractToolNameL (st.acc ++ c) with
  | none =>
    left
    simp [fenceStep, hname, hse]
  | some nm =>
    right
    refine ⟨by simp [fenceStep, hname, hse], nm, (deltaEv (st.acc ++ c) st.streamedLen).2,
      by simp [fenceStep, hname, hse], noStarts_deltaEv _ _, rfl⟩

theorem runFenceSteps_started (chunks : List (List Char)) :
    ∀ st, st.startEmitted = true →
      (runFenceSteps st chunks).1.startEmitted = true ∧
      noStarts (runFenceSteps st chunks).2 = true := by
  induction chunks with
  | nil => intro st hse; exact ⟨hse, rfl⟩
  | cons c r ih =>
    intro st hse
    obtain ⟨h1, h2⟩ := fenceStep_started st c hse
    obtain ⟨h3, h4⟩ := ih (fenceStep st c).1 h1
    refine ⟨h3, ?_⟩
    simp only [runFenceSteps, noStarts_append, h2, h4]
    rfl

theorem runFenceSteps_start_shape (chunks : List (List Char)) :
    ∀ st, st.startEmitted = false →
      ((runFenceSteps st chunks).1.startEmitted = false ∧
        (runFenceSteps st chunks).2 = []) ∨
      ((runFenceSteps st chunks).1.startEmitted = true ∧
        ∃ nm rest, (runFenceSteps st chunks).2 = FEv.start nm :: rest ∧
          noStarts rest = true ∧
          ∃ pfx, pfx <+: (runFenceSteps st chunks).1.acc ∧
            extractToolNameL pfx = some nm) := by
  induction chunks with
  | nil =>
    intro st hse
    left
    exact ⟨hse, rfl⟩
  | cons c r ih =>
    intro st hse
    rcases fenceStep_unstarted st c hse with ⟨h1, h2⟩ | ⟨h1, nm, ds, h2, h3, h4⟩
    · rcases ih (fenceStep st c).1 h1 with ⟨g1, g2⟩ | ⟨g1, nm, rest, g2, g3, pfx, g4, g5⟩
      · left
        refine ⟨g1, ?_⟩
        simp [runFenceSteps, h2, g2]
      · right
        refine ⟨g1, nm, rest, ?_, g3, pfx, g4, g5⟩
        simp [runFenceSteps, h2, g2]
    · right
      obtain ⟨g1, g2⟩ := runFenceSteps_started r (fenceStep st c).1 h1
      refine ⟨g1, nm, ds ++ (runFenceSteps (fenceStep st c).1 r).2, ?_, ?_, st.acc ++ c, ?_, h4⟩
      · simp [runFenceSteps, h2]
      · simp [noStarts_append, h3, g2]
      · rw [runFenceSteps_acc]
        exact ⟨r.join, by rw [List.append_assoc]; simp [List.join]⟩

theorem fenceClosePre_unstarted (st : FenceSt) (last : List Char)
    (hse : st.startEmitted = false) :
    (fenceClosePre st last).1.startEmitted = false ∧
    (fenceClosePre st last).2 = [] ∧
    (fenceClosePre st last).1.acc = st.acc ++ last := by
  simp [fenceClosePre, hse]

theorem fenceClosePre_started (st : FenceSt) (last : List Char)
    (hse : st.startEmitted = true) :
    (fenceClosePre st last).1.startEmitted = true ∧
    noStarts (fenceClosePre st last).2 = true ∧
    (fenceClosePre st last).1.acc = st.acc ++ last := by
  simp [fenceClosePre, hse, noStarts_deltaEv]

theorem fenceCloseCall_unstarted (st : FenceSt) (name : List Char)
    (hse : st.startEmitted = false) :
    ∃ ds, (fenceCloseCall st name).2 = FEv.start name :: ds ∧ noStarts ds = true := by
  refine ⟨(deltaEv st.acc st.streamedLen).2, ?_, noStarts_deltaEv _ _⟩
  simp [fenceCloseCall, hse]

theorem fenceCloseCall_started (st : FenceSt) (name : List Char)
    (hse : st.startEmitted = true) :
    noStarts (fenceCloseCall st name).2 = true := by
  simp [fenceCloseCall, hse, noStarts_deltaEv]

/-- C9 as amended: in every fence run the very first emitted tool-input
event is the single tool-input-start — so it precedes every
tool-input-delta for the fence's tool-call id — and its name is either the
regex-extracted name from a prefix of the fence content (the incremental
path) or the parsed call's name supplied at fence close (even when the
regex never matched). -/
theorem toolInputStart_first (chunks : List (List Char)) (lastChunk name : List Char) :
    ∃ nm rest, (runFence chunks lastChunk name).2 = FEv.start nm :: rest ∧
      noStarts rest = true ∧
      (nm = name ∨ ∃ pfx, pfx <+: (chunks.join ++ lastChunk) ∧
        extractToolNameL pfx = some nm) := by
  have hinit : initFenceSt.startEmitted = false := rfl
  have hacc1 : (runFenceSteps initFenceSt chunks).1.acc = chunks.join := by
    rw [runFenceSteps_acc]
    rfl
  rcases runFenceSteps_start_shape chunks initFenceSt hinit with
    ⟨h1, h2⟩ | ⟨h1, nm, rest, h2, h3, pfx, h4, h5⟩
  · obtain ⟨p1, p2, p3⟩ := fenceClosePre_unstarted (runFenceSteps initFenceSt chunks).1
      lastChunk h1
    obtain ⟨ds, c1, c2⟩ := fenceCloseCall_unstarted
      (fenceClosePre (runFenceSteps initFenceSt chunks).1 lastChunk).1 name p1
    refine ⟨name, ds, ?_, c2, Or.inl rfl⟩
    unfold runFence
    rw [h2, p2, c1]
    rfl
  · obtain ⟨p1, p2, p3⟩ := fenceClosePre_started (runFenceSteps initFenceSt chunks).1
      lastChunk h1
    have c2 := fenceCloseCall_started
      (fenceClosePre (runFenceSteps initFenceSt chunks).1 lastChunk).1 name p1
    refine ⟨nm, rest ++ ((fenceClosePre (runFenceSteps initFenceSt chunks).1 lastChunk).2 ++
        (fenceCloseCall (fenceClosePre (runFenceSteps initFenceSt chunks).1 lastChunk).1
          name).2), ?_, ?_, Or.inr ⟨pfx, ?_, h5⟩⟩
    · unfold runFence
      rw [h2]
      rfl
    · simp [noStarts_append, h3, p2, c2]
    · rw [hacc1] at h4
      exact h4.trans (List.prefix_append _ _)

/-- C9 counterexample: a fence whose payload lists `arguments` before
`name` never matches the tool-name regex on any prefix of the accumulated
content, yet the tool-input-start event is still emitted (at fence close,
from the parsed call), refuting the claim that no start is enqueued before
the regex match succeeds. -/
theorem nameGate_counterexample :
    ((runFence [] "\x7b\"arguments\":\x7b\"a\":1\x7d,\"name\":\"x\"\x7d".data "x".data).2.any
        (fun e => match e with | FEv.start _ => true | _ => false) = true) ∧
    ((List.range ("\x7b\"arguments\":\x7b\"a\":1\x7d,\"name\":\"x\"\x7d".data.length + 1)).all
        (fun n =>
          (extractToolNameL ("\x7b\"arguments\":\x7b\"a\":1\x7d,\"name\":\"x\"\x7d".data.take n)).isNone)
      = true) ∧
    (parseJsonFunctionCalls "\x7b\"arguments\":\x7b\"a\":1\x7d,\"name\":\"x\"\x7d").toolCalls.length
      = 1 := by
  exact ⟨by decide, by decide, by rfl⟩

/-! Full streaming driver of WebLLM doStream (source: part_004 lines
567-959).  The fence detector is not under src/ and is modelled from the
spec (section 4.1): a fixed opening delimiter line, a fixed closing
delimiter line, held-back text bounded by the delimiter length, the
complete fenced block (delimiters excluded) returned once, and the text
after the closing delimiter returned as textAfterFence.  The classification
loop runs while the detector can still classify buffered content; when only
held-back partial-marker text remains, the loop rests until more input or
the end-of-stream flush (the source expresses this with hasContent and a
no-progress break). -/

/-- Internal state of the fence detector (modelled from the spec). -/
structure DetSt where
  buffer : List Char
  inFence : Bool
  fenceAcc : List Char
deriving Repr, DecidableEq

/-- The opening delimiter line of a tool-call fence. -/
def openMarker : List Char := "```tool_call\n".data

/-- The closing delimiter of a tool-call fence. -/
def closeMarker : List Char := "\n```".data

/-- Length of the longest proper prefix of the marker that is a suffix of
the buffer: text that must be held back (bounded lookback). -/
def heldLenAux : Nat → List Char → List Char → Nat
  | 0, _, _ => 0
  | k + 1, l, pat => if (pat.take (k + 1)).isSuffixOf l then k + 1 else heldLenAux k l pat

def heldLen (l pat : List Char) : Nat :=
  heldLenAux (min (pat.length - 1) l.length) l pat

/-- One detector result (modelled from the spec, section 4.1). -/
structure DetectResult where
  safeContent : List Char
  inFence : Bool
  completeFence : Option (List Char)
  textAfterFence : List Char
deriving Repr, DecidableEq

/-- Modelled from the spec: detectStreamingFence — classify as much of the
buffer as possible.  Outside a fence: text before a complete opening
delimiter is safe, a partial delimiter suffix is held back; inside a fence:
content before the closing delimiter accumulates (delivered as safe
slices), and on close the whole fenced block plus any text after the
delimiter is returned and the buffer is consumed. -/
def detect (d : DetSt) : DetSt × DetectResult :=
  match d.inFence with
  | true =>
    match findSub closeMarker d.buffer with
    | some i =>
      ({ buffer := [], inFence := false, fenceAcc := [] },
       { safeContent := d.buffer.take i, inFence := false,
         completeFence := some (d.fenceAcc ++ d.buffer.take i),
         textAfterFence := d.buffer.drop (i + 4) })
    | none =>
      ({ buffer := d.buffer.drop (d.buffer.length - heldLen d.buffer closeMarker),
         inFence := true,
         fenceAcc := d.fenceAcc ++ d.buffer.take (d.buffer.length - heldLen d.buffer closeMarker) },
       { safeContent := d.buffer.take (d.buffer.length - heldLen d.buffer closeMarker),
         inFence := true, completeFence := none, textAfterFence := [] })
  | false =>
    match findSub openMarker d.buffer with
    | some i =>
      ({ buffer := d.buffer.drop (i + 13), inFence := true, fenceAcc := [] },
       { safeContent := d.buffer.take i, inFence := true,
         completeFence := none, textAfterFence := [] })
    | none =>
      ({ buffer := d.buffer.drop (d.buffer.length - heldLen d.buffer openMarker),
         inFence := false, fenceAcc := [] },
       { safeContent := d.buffer.take (d.buffer.length - heldLen d.buffer openMarker),
         inFence := false, completeFence := none, textAfterFence := [] })

/-- Events of the WebLLM stream (ids as strings; the generated tool-call
ids, built in the source from the clock and a random suffix, are modelled
as a counter). -/
inductive Ev where
  | streamStart
  | textStart (id : String)
  | textDelta (id : String) (d : String)
  | textEnd (id : String)
  | toolInputStart (id : String) (name : String)
  | toolInputDelta (id : String) (d : String)
  | toolInputEnd (id : String)
  | toolCall (id : String) (name : String) (input : String)
  | finish (reason : String)
deriving Repr, DecidableEq

def mkId (n : Nat) : String := "call_" ++ toString n

def mapFEv (id : String) : FEv → Ev
  | .start nm => .toolInputStart id (String.mk nm)
  | .delta d => .toolInputDelta id (String.mk d)

/-- Driver state of one doStream generation (source lines 604-701). -/
structure StState where
  textStarted : Bool
  finished : Bool
  det : DetSt
  insideFence : Bool
  currentId : Option String
  fence : FenceSt
  accText : List Char
  nextId : Nat
deriving Repr, DecidableEq

def initStState : StState :=
  { textStarted := false, finished := false,
    det := { buffer := [], inFence := false, fenceAcc := [] },
    insideFence := false, currentId := none, fence := initFenceSt,
    accText := [], nextId := 0 }

/-- The emitTextDelta helper (lines 626-634) with ensureTextStart. -/
def emitTextDelta (st : StState) (d : List Char) : StState × List Ev :=
  match d.isEmpty, st.textStarted with
  | true, _ => (st, [])
  | false, true => (st, [Ev.textDelta "text-0" (String.mk d)])
  | false, false =>
    ({ st with textStarted := true },
     [Ev.textStart "text-0", Ev.textDelta "text-0" (String.mk d)])

/-- The emitTextEndIfNeeded helper (lines 636-643). -/
def emitTextEndIfNeeded (st : StState) : StState × List Ev :=
  match st.textStarted with
  | false => (st, [])
  | true => ({ st with textStarted := false }, [Ev.textEnd "text-0"])

/-- State reset after leaving a fence (lines 772-776 and 852-856). -/
def resetFence (st : StState) : StState :=
  { st with currentId := none, fence := initFenceSt, insideFence := false }

/-- The zero-resolvable-calls fallback of the fence-close branch
(lines 766-778): the fenced text and any text after the fence become
ordinary text deltas and the fence state resets. -/
def closeFallback (st : StState) (cf after : List Char) : StState × List Ev :=
  match emitTextDelta st cf with
  | (st1, evs1) =>
    match emitTextDelta st1 after with
    | (st2, evs2) => (resetFence st2, evs1 ++ evs2)

/-- The resolvable-call body of the fence-close branch (lines 780-849)
for the selected first call. -/
def closeWithCall (st : StState) (call : ParsedToolCall) (after : List Char) :
    StState × List Ev :=
  match st.currentId with
  | some cid =>
    match fenceCloseCall st.fence call.toolName.data with
    | (f2, fevs) =>
      match emitTextDelta { st with fence := f2 } after with
      | (st2, evsAfter) =>
        (resetFence st2,
         fevs.map (mapFEv cid) ++
           [Ev.toolInputEnd cid,
            Ev.toolCall cid call.toolName (jstr call.args)] ++ evsAfter)
  | none =>
    match emitTextDelta st after with
    | (st2, evsAfter) =>
      (resetFence st2,
       [Ev.toolInputStart call.toolCallId call.toolName] ++
         (if (jstr call.args).isEmpty then []
          else [Ev.toolInputDelta call.toolCallId (jstr call.args)]) ++
         [Ev.toolInputEnd call.toolCallId,
          Ev.toolCall call.toolCallId call.toolName (jstr call.args)] ++ evsAfter)

/-- The in-fence incremental branch (lines 860-899): with a current id the
per-fence step runs (name gate, argument deltas); without one only the
content accumulates, since every emission there is gated on
currentToolCallId. -/
def inFenceStep (st : StState) (safe : List Char) : StState × List Ev :=
  match safe.isEmpty with
  | true => (st, [])
  | false =>
    match st.currentId with
    | some cid =>
      match fenceStep st.fence safe with
      | (f1, fevs) => ({ st with fence := f1 }, fevs.map (mapFEv cid))
    | none =>
      ({ st with fence := { st.fence with acc := st.fence.acc ++ safe } }, [])

/-- The fence-close branch (lines 739-857): append the final safe slice
(with the pre-parse flush when the start event is out and an id is
current), parse the complete fence, then either the plain-text fallback or
the selected first call. -/
def closeBranch (st : StState) (cf safe after : List Char) : StState × List Ev :=
  match st.currentId with
  | some cid =>
    match fenceClosePre st.fence safe with
    | (f1, fevs1) =>
      match (parseJsonFunctionCalls (String.mk cf)).toolCalls.take 1 with
      | [] =>
        match closeFallback { st with fence := f1 } cf after with
        | (st2, evs2) => (st2, fevs1.map (mapFEv cid) ++ evs2)
      | call :: _ =>
        match closeWithCall { st with fence := f1 } call after with
        | (st2, evs2) => (st2, fevs1.map (mapFEv cid) ++ evs2)
  | none =>
    match (parseJsonFunctionCalls (String.mk cf)).toolCalls.take 1 with
    | [] =>
      closeFallback { st with fence := { st.fence with acc := st.fence.acc ++ safe } }
        cf after
    | call :: _ =>
      closeWithCall { st with fence := { st.fence with acc := st.fence.acc ++ safe } }
        call after

/-- Sequencing of an emission step and a continuation, concatenating their
events. -/
def andThen (p : StState × List Ev) (k : StState → StState × List Ev) :
    StState × List Ev :=
  ((k p.1).1, p.2 ++ (k p.1).2)

/-- The classification loop of doStream (lines 715-910), fuelled by the
buffer length: every productive iteration consumes buffered characters, and
the loop exits when nothing remains or nothing could be classified. -/
def innerLoop : Nat → StState → StState × List Ev
  | 0, st => (st, [])
  | fuel + 1, st =>
    match st.det.buffer.isEmpty with
    | true => (st, [])
    | false =>
      match st.insideFence, (detect st.det).2.inFence with
      | false, true =>
        andThen
          (emitTextDelta { st with det := (detect st.det).1, insideFence := true }
            (detect st.det).2.safeContent)
          (fun st1 => innerLoop fuel
            { st1 with currentId := some (mkId st1.nextId),
                       nextId := st1.nextId + 1, fence := initFenceSt })
      | _, _ =>
        match (detect st.det).2.completeFence with
        | some cf =>
          match cf.isEmpty with
          | true =>
            ({ st with det := (detect st.det).1,
                       insideFence := (detect st.det).2.inFence }, [])
          | false =>
            andThen
              (closeBranch
                { st with det := (detect st.det).1,
                          insideFence := (detect st.det).2.inFence }
                cf (detect st.det).2.safeContent (detect st.det).2.textAfterFence)
              (fun st1 => innerLoop fuel st1)
        | none =>
          match (detect st.det).2.inFence with
          | true =>
            match (detect st.det).2.safeContent.isEmpty with
            | true =>
              inFenceStep { st with det := (detect st.det).1, insideFence := true }
                (detect st.det).2.safeContent
            | false =>
              andThen
                (inFenceStep { st with det := (detect st.det).1, insideFence := true }
                  (detect st.det).2.safeContent)
                (fun st1 => innerLoop fuel st1)
          | false =>
            match (detect st.det).2.safeContent.isEmpty with
            | true => ({ st with det := (detect st.det).1, insideFence := false }, [])
            | false =>
              andThen
                (emitTextDelta { st with det := (detect st.det).1, insideFence := false }
                  (detect st.det).2.safeContent)
                (fun st1 => innerLoop fuel st1)

/-- Content handling of one upstream delta (lines 707-714): accumulate the
text, feed the detector, run the classification loop. -/
def handleContent (st : StState) (dch : List Char) : StState × List Ev :=
  innerLoop (st.det.buffer.length + dch.length + 1)
    { st with accText := st.accText ++ dch,
              det := { st.det with buffer := st.det.buffer ++ dch } }

/-- The end-of-stream flush (lines 914-918): any remaining buffered content
is emitted as text and the buffer cleared. -/
def flushBuffer (st : StState) : StState × List Ev :=
  match st.det.buffer.isEmpty with
  | true => (st, [])
  | false =>
    match emitTextDelta st st.det.buffer with
    | (st1, evs) => ({ st1 with det := { st1.det with buffer := [] } }, evs)

/-- The finish-reason computation (lines 920-932): abort wins, then a
re-parse of the whole accumulated text decides between tool-calls and
stop. -/
def finishReasonOf (st : StState) (fr : String) : String :=
  if fr = "abort" then "other"
  else if (parseJsonFunctionCalls (String.mk st.accText)).toolCalls.isEmpty then "stop"
  else "tool-calls"

/-- State of the output ReadableStream controller. -/
inductive CtlSt where
  | opn
  | closed
  | errored
deriving Repr, DecidableEq

/-- The output controller: delivered events plus stream state. -/
structure Ctl where
  evs : List Ev
  st : CtlSt
deriving Repr, DecidableEq

/-- Enqueue a list of events: on an open controller all are delivered; on a
closed or errored one the first enqueue throws (delivering nothing), and
enqueuing nothing performs no call and cannot throw. -/
def enqList (c : Ctl) (l : List Ev) : Ctl × Bool :=
  match c.st with
  | .opn => ({ c with evs := c.evs ++ l }, true)
  | _ => (c, l.isEmpty)

/-- controller.close() as called from finishStream (on an open stream). -/
def ctlClose (c : Ctl) : Ctl :=
  match c.st with
  | .opn => { c with st := .closed }
  | _ => c

/-- controller.error(): errors an open stream, otherwise does nothing. -/
def ctlError (c : Ctl) : Ctl :=
  match c.st with
  | .opn => { c with st := .errored }
  | _ => c

/-- The finishStream helper (lines 645-677): guarded by the finished flag,
it closes any open text span, emits the single finish event and closes the
output. -/
def finishStreamRun (st : StState) (ctl : Ctl) (reason : String) :
    StState × Ctl × Bool :=
  match st.finished with
  | true => (st, ctl, true)
  | false =>
    match (enqList ctl ((emitTextEndIfNeeded st).2 ++ [Ev.finish reason])).2 with
    | true =>
      ({ (emitTextEndIfNeeded st).1 with finished := true },
       ctlClose (enqList ctl ((emitTextEndIfNeeded st).2 ++ [Ev.finish reason])).1,
       true)
    | false =>
      ({ (emitTextEndIfNeeded st).1 with finished := true },
       (enqList ctl ((emitTextEndIfNeeded st).2 ++ [Ev.finish reason])).1, false)

/-- The finish_reason handling of one upstream chunk (lines 913-935):
flush the remaining buffer as text, then finish with the computed reason. -/
def processFinish (st : StState) (ctl : Ctl) (fr : String) :
    StState × Ctl × Bool :=
  match (enqList ctl (flushBuffer st).2).2 with
  | false => ((flushBuffer st).1, (enqList ctl (flushBuffer st).2).1, false)
  | true =>
    finishStreamRun (flushBuffer st).1 (enqList ctl (flushBuffer st).2).1
      (finishReasonOf st fr)

/-- One upstream chunk of the model stream: whether it has a choice, its
content delta (empty models both an empty and an absent delta, which the
source treats alike) and its finish_reason. -/
structure UpChunk where
  hasChoice : Bool
  content : String
  finishReason : Option String
deriving Repr, DecidableEq

/-- Content handling of one chunk: an absent or empty delta does nothing. -/
def contentStep (st : StState) (ch : UpChunk) : StState × List Ev :=
  match ch.content.isEmpty with
  | true => (st, [])
  | false => handleContent st ch.content.data

/-- The for-await body over the upstream chunks (lines 703-936).  The third
component is false when an enqueue threw, aborting the iteration. -/
def runChunks : StState → Ctl → List UpChunk → StState × Ctl × Bool
  | st, ctl, [] => (st, ctl, true)
  | st, ctl, ch :: r =>
    match ch.hasChoice with
    | false => runChunks st ctl r
    | true =>
      match (enqList ctl (contentStep st ch).2).2 with
      | false => ((contentStep st ch).1, (enqList ctl (contentStep st ch).2).1, false)
      | true =>
        match ch.finishReason with
        | none => runChunks (contentStep st ch).1 (enqList ctl (contentStep st ch).2).1 r
        | some fr =>
          match (processFinish (contentStep st ch).1
              (enqList ctl (contentStep st ch).2).1 fr).2.2 with
          | true =>
            runChunks
              (processFinish (contentStep st ch).1
                (enqList ctl (contentStep st ch).2).1 fr).1
              (processFinish (contentStep st ch).1
                (enqList ctl (contentStep st ch).2).1 fr).2.1 r
          | false =>
            processFinish (contentStep st ch).1
              (enqList ctl (contentStep st ch).2).1 fr

/-- The finally clause's close (line 948-950): reached with the finished
flag unset; closing an errored stream throws, leaving it errored. -/
def ctlCloseFinally (c : Ctl) : Ctl :=
  match c.st with
  | .opn => { c with st := .closed }
  | _ => c

/-- The catch/finally path: controller.error for the surfaced exception,
then the finally clause closes only when the finished flag is unset. -/
def errExit (st : StState) (ctl : Ctl) : StState × Ctl :=
  (st, (match st.finished with
        | true => ctlError ctl
        | false => ctlCloseFinally (ctlError ctl)))

/-- Embedding of the whole stream body of doStream (lines 606-953):
stream-start, the chunk loop, the no-finish fallback, and the catch/finally
paths; errAfter models the upstream iterator throwing after the given
chunks (an earlier error is the same execution with the later chunks
dropped). -/
def runStream (chunks : List UpChunk) (errAfter : Bool) : StState × Ctl :=
  match (runChunks initStState { evs := [Ev.streamStart], st := .opn } chunks).2.2,
        errAfter with
  | true, false =>
    ((finishStreamRun
        (runChunks initStState { evs := [Ev.streamStart], st := .opn } chunks).1
        (runChunks initStState { evs := [Ev.streamStart], st := .opn } chunks).2.1
        "stop").1,
     (finishStreamRun
        (runChunks initStState { evs := [Ev.streamStart], st := .opn } chunks).1
        (runChunks initStState { evs := [Ev.streamStart], st := .opn } chunks).2.1
        "stop").2.1)
  | _, _ =>
    errExit (runChunks initStState { evs := [Ev.streamStart], st := .opn } chunks).1
      (runChunks initStState { evs := [Ev.streamStart], st := .opn } chunks).2.1

def isFinishEv : Ev → Bool
  | .finish _ => true
  | _ => false

def noFinish (evs : List Ev) : Bool :=
  evs.all (fun e => !(isFinishEv e))

def finishCount (evs : List Ev) : Nat :=
  (evs.filter isFinishEv).length

/-- Concatenation of text-delta payloads of a stream's events. -/
def textDeltasOf (evs : List Ev) : List Char :=
  (evs.filterMap (fun e => match e with | Ev.textDelta _ d => some d.data | _ => none)).join

/-! Lifecycle lemmas: none of the content-handling emitters produces a
finish event or touches the finished flag; only finishStreamRun does. -/

lemma noFinish_append (a b : List Ev) :
    noFinish (a ++ b) = (noFinish a && noFinish b) := by
  simp [noFinish, List.all_append]

lemma emitTextDelta_noFinish (st : StState) (d : List Char) :
    noFinish (emitTextDelta st d).2 = true := by
  cases hd : d.isEmpty <;> cases ht : st.textStarted <;>
    simp [emitTextDelta, hd, ht, noFinish, isFinishEv]

lemma emitTextDelta_finished (st : StState) (d : List Char) :
    (emitTextDelta st d).1.finished = st.finished := by
  cases hd : d.isEmpty <;> cases ht : st.textStarted <;>
    simp [emitTextDelta, hd, ht]

lemma emitTextEndIfNeeded_noFinish (st : StState) :
    noFinish (emitTextEndIfNeeded st).2 = true := by
  cases ht : st.textStarted <;>
    simp [emitTextEndIfNeeded, ht, noFinish, isFinishEv]

lemma emitTextEndIfNeeded_finished (st : StState) :
    (emitTextEndIfNeeded st).1.finished = st.finished := by
  cases ht : st.textStarted <;> simp [emitTextEndIfNeeded, ht]

lemma noFinish_mapFEv (id : String) (l : List FEv) :
    noFinish (l.map (mapFEv id)) = true := by
  induction l with
  | nil => rfl
  | cons a l ih => cases a <;> simp [noFinish, mapFEv, isFinishEv] <;>
      simpa [noFinish] using ih

lemma closeFallback_noFinish (st : StState) (cf after : List Char) :
    noFinish (closeFallback st cf after).2 = true := by
  have h : (closeFallback st cf after).2
      = (emitTextDelta st cf).2 ++ (emitTextDelta (emitTextDelta st cf).1 after).2 := rfl
  rw [h, noFinish_append, emitTextDelta_noFinish, emitTextDelta_noFinish]
  rfl

lemma closeFallback_finished (st : StState) (cf after : List Char) :
    (closeFallback st cf after).1.finished = st.finished := by
  have h : (closeFallback st cf after).1
      = resetFence (emitTextDelta (emitTextDelta st cf).1 after).1 := rfl
  rw [h]
  show (emitTextDelta (emitTextDelta st cf).1 after).1.finished = st.finished
  rw [emitTextDelta_finished, emitTextDelta_finished]

lemma closeWithCall_noFinish (st : StState) (call : ParsedToolCall) (after : List Char) :
    noFinish (closeWithCall st call after).2 = true := by
  cases hid : st.currentId with
  | some cid =>
    have h : (closeWithCall st call after).2
        = (fenceCloseCall st.fence call.toolName.data).2.map (mapFEv cid) ++
            [Ev.toolInputEnd cid,
             Ev.toolCall cid call.toolName (jstr call.args)] ++
            (emitTextDelta { st with fence := (fenceCloseCall st.fence call.toolName.data).1 } after).2 := by
      simp [closeWithCall, hid]
    rw [h, noFinish_append, noFinish_append, noFinish_mapFEv, emitTextDelta_noFinish]
    simp [noFinish, isFinishEv]
  | none =>
    cases hj : (jstr call.args).isEmpty <;>
      simp [closeWithCall, hid, hj, noFinish, isFinishEv, noFinish_append,
            emitTextDelta_noFinish] <;>
      simpa [noFinish] using emitTextDelta_noFinish st after

lemma closeWithCall_finished (st : StState) (call : ParsedToolCall) (after : List Char) :
    (closeWithCall st call after).1.finished = st.finished := by
  cases hid : st.currentId with
  | some cid =>
    have h : (closeWithCall st call after).1
        = resetFence (emitTextDelta { st with fence := (fenceCloseCall st.fence call.toolName.data).1 } after).1 := by
      simp [closeWithCall, hid]
    rw [h]
    show (emitTextDelta { st with fence := (fenceCloseCall st.fence call.toolName.data).1 } after).1.finished = st.finished
    rw [emitTextDelta_finished]
  | none =>
    have h : (closeWithCall st call after).1
        = resetFence (emitTextDelta st after).1 := by
      simp [closeWithCall, hid]
    rw [h]
    show (emitTextDelta st after).1.finished = st.finished
    rw [emitTextDelta_finished]

lemma inFenceStep_noFinish (st : StState) (safe : List Char) :
    noFinish (inFenceStep st safe).2 = true := by
  cases hs : safe.isEmpty with
  | true => simp [inFenceStep, hs]; rfl
  | false =>
    cases hid : st.currentId <;> simp [inFenceStep, hs, hid, noFinish_mapFEv] <;> rfl

lemma inFenceStep_finished (st : StState) (safe : List Char) :
    (inFenceStep st safe).1.finished = st.finished := by
  cases hs : safe.isEmpty <;> cases hid : st.currentId <;>
    simp [inFenceStep, hs, hid]

lemma closeBranch_noFinish (st : StState) (cf safe after : List Char) :
    noFinish (closeBranch st cf safe after).2 = true := by
  cases hid : st.currentId with
  | some cid =>
    cases hc : (parseJsonFunctionCalls (String.mk cf)).toolCalls.take 1 with
    | nil =>
      simp [closeBranch, hid, hc, noFinish_append, noFinish_mapFEv,
            closeFallback_noFinish]
    | cons call l =>
      simp [closeBranch, hid, hc, noFinish_append, noFinish_mapFEv,
            closeWithCall_noFinish]
  | none =>
    cases hc : (parseJsonFunctionCalls (String.mk cf)).toolCalls.take 1 with
    | nil => simp [closeBranch, hid, hc, closeFallback_noFinish]
    | cons call l => simp [closeBranch, hid, hc, closeWithCall_noFinish]

lemma closeBranch_finished (st : StState) (cf safe after : List Char) :
    (closeBranch st cf safe after).1.finished = st.finished := by
  cases hid : st.currentId with
  | some cid =>
    cases hc : (parseJsonFunctionCalls (String.mk cf)).toolCalls.take 1 with
    | nil =>
      simp [closeBranch, hid, hc, closeFallback_finished]
    | cons call l =>
      simp [closeBranch, hid, hc, closeWithCall_finished]
  | none =>
    cases hc : (parseJsonFunctionCalls (String.mk cf)).toolCalls.take 1 with
    | nil => simp [closeBranch, hid, hc, closeFallback_finished]
    | cons call l => simp [closeBranch, hid, hc, closeWithCall_finished]

lemma andThen_snd (p : StState × List Ev) (k : StState → StState × List Ev) :
    (andThen p k).2 = p.2 ++ (k p.1).2 := rfl

lemma andThen_fst (p : StState × List Ev) (k : StState → StState × List Ev) :
    (andThen p k).1 = (k p.1).1 := rfl

lemma innerLoop_noFinish : ∀ fuel st, noFinish (innerLoop fuel st).2 = true := by
  intro fuel
  induction fuel with
  | zero => intro st; rfl
  | succ n ih =>
    intro st
    cases hb : st.det.buffer.isEmpty with
    | true => simp [innerLoop, hb]; rfl
    | false =>
      cases hwi : st.insideFence <;> cases hri : (detect st.det).2.inFence
      case false.true =>
        simp only [innerLoop, hb, hwi, hri, andThen_snd, noFinish_append,
          Bool.and_eq_true]
        exact ⟨emitTextDelta_noFinish _ _, ih _⟩
      all_goals
        cases hcf : (detect st.det).2.completeFence with
        | some cf =>
          cases hce : cf.isEmpty with
          | true => simp [innerLoop, hb, hwi, hri, hcf, hce]; rfl
          | false =>
            simp only [innerLoop, hb, hwi, hri, hcf, hce, andThen_snd,
              noFinish_append, Bool.and_eq_true]
            exact ⟨closeBranch_noFinish _ _ _ _, ih _⟩
        | none =>
          cases hsc : (detect st.det).2.safeContent.isEmpty with
          | true =>
            simp only [innerLoop, hb, hwi, hri, hcf, hsc]
            first
            | exact inFenceStep_noFinish _ _
            | rfl
          | false =>
            simp only [innerLoop, hb, hwi, hri, hcf, hsc, andThen_snd,
              noFinish_append, Bool.and_eq_true]
            first
            | exact ⟨inFenceStep_noFinish _ _, ih _⟩
            | exact ⟨emitTextDelta_noFinish _ _, ih _⟩

lemma innerLoop_finished : ∀ fuel st, (innerLoop fuel st).1.finished = st.finished := by
  intro fuel
  induction fuel with
  | zero => intro st; rfl
  | succ n ih =>
    intro st
    cases hb : st.det.buffer.isEmpty with
    | true => simp [innerLoop, hb]
    | false =>
      cases hwi : st.insideFence <;> cases hri : (detect st.det).2.inFence
      case false.true =>
        simp only [innerLoop, hb, hwi, hri, andThen_fst]
        rw [ih]
        show (emitTextDelta _ _).1.finished = st.finished
        rw [emitTextDelta_finished]
      all_goals
        cases hcf : (detect st.det).2.completeFence with
        | some cf =>
          cases hce : cf.isEmpty with
          | true => simp [innerLoop, hb, hwi, hri, hcf, hce]
          | false =>
            simp only [innerLoop, hb, hwi, hri, hcf, hce, andThen_fst]
            rw [ih, closeBranch_finished]
        | none =>
          cases hsc : (detect st.det).2.safeContent.isEmpty with
          | true =>
            first
            | ( simp only [innerLoop, hb, hwi, hri, hcf, hsc]
                rw [inFenceStep_finished] )
            | simp [innerLoop, hb, hwi, hri, hcf, hsc]
          | false =>
            simp only [innerLoop, hb, hwi, hri, hcf, hsc, andThen_fst]
            rw [ih]
            first
            | rw [inFenceStep_finished]
            | ( show (emitTextDelta _ _).1.finished = st.finished
                rw [emitTextDelta_finished] )

lemma handleContent_noFinish (st : StState) (dch : List Char) :
    noFinish (handleContent st dch).2 = true := by
  unfold handleContent; exact innerLoop_noFinish _ _

lemma handleContent_finished (st : StState) (dch : List Char) :
    (handleContent st dch).1.finished = st.finished := by
  unfold handleContent; rw [innerLoop_finished]

lemma flushBuffer_noFinish (st : StState) :
    noFinish (flushBuffer st).2 = true := by
  cases hb : st.det.buffer.isEmpty with
  | true => simp [flushBuffer, hb]; rfl
  | false =>
    simp only [flushBuffer, hb]
    exact emitTextDelta_noFinish _ _

lemma flushBuffer_finished (st : StState) :
    (flushBuffer st).1.finished = st.finished := by
  cases hb : st.det.buffer.isEmpty with
  | true => simp [flushBuffer, hb]
  | false =>
    simp only [flushBuffer, hb]
    show (emitTextDelta st st.det.buffer).1.finished = st.finished
    rw [emitTextDelta_finished]

/-- The delivered events carry exactly one trailing finish when the
generation has finished and none before that. -/
def EvOk (finished : Bool) (evs : List Ev) : Prop :=
  match finished with
  | false => noFinish evs = true
  | true => ∃ pre r, evs = pre ++ [Ev.finish r] ∧ noFinish pre = true

/-- Invariant tying the driver state to the controller: the controller is
open or closed (never errored inside the loop), it is closed exactly when
the finished flag is set, and the delivered events satisfy EvOk. -/
def Inv (st : StState) (ctl : Ctl) : Prop :=
  (ctl.st = CtlSt.opn ∨ ctl.st = CtlSt.closed) ∧
  (ctl.st = CtlSt.closed ↔ st.finished = true) ∧
  EvOk st.finished ctl.evs

lemma contentStep_noFinish (st : StState) (ch : UpChunk) :
    noFinish (contentStep st ch).2 = true := by
  cases hc : ch.content.isEmpty with
  | true => simp [contentStep, hc]; rfl
  | false => simp only [contentStep, hc]; exact handleContent_noFinish _ _

lemma contentStep_finished (st : StState) (ch : UpChunk) :
    (contentStep st ch).1.finished = st.finished := by
  cases hc : ch.content.isEmpty with
  | true => simp [contentStep, hc]
  | false => simp only [contentStep, hc]; exact handleContent_finished _ _

lemma finishStreamRun_good (st : StState) (ctl : Ctl) (reason : String)
    (h : Inv st ctl) :
    Inv (finishStreamRun st ctl reason).1 (finishStreamRun st ctl reason).2.1 ∧
    (finishStreamRun st ctl reason).2.2 = true ∧
    (finishStreamRun st ctl reason).1.finished = true := by
  obtain ⟨hdisj, hiff, hevok⟩ := h
  cases hf : st.finished with
  | true =>
    simp only [finishStreamRun, hf]
    exact ⟨⟨hdisj, hiff, hevok⟩, by trivial, by first | trivial | exact hf⟩
  | false =>
    have hopn : ctl.st = CtlSt.opn := by
      rcases hdisj with h1 | h1
      · exact h1
      · rw [hiff.mp h1] at hf; cases hf
    rw [hf] at hevok
    simp only [EvOk] at hevok
    simp only [finishStreamRun, hf, enqList, hopn, ctlClose]
    refine ⟨⟨Or.inr rfl, by first | trivial | exact ⟨fun _ => rfl, fun _ => rfl⟩, ?_⟩,
      by trivial, by trivial⟩
    simp only [EvOk]
    refine ⟨ctl.evs ++ (emitTextEndIfNeeded st).2, reason, ?_, ?_⟩
    · rw [List.append_assoc]
    · rw [noFinish_append, hevok, emitTextEndIfNeeded_noFinish]; rfl

lemma processFinish_good (st : StState) (ctl : Ctl) (fr : String)
    (h : Inv st ctl) :
    Inv (processFinish st ctl fr).1 (processFinish st ctl fr).2.1 ∧
    ((processFinish st ctl fr).2.2 = false →
      (processFinish st ctl fr).1.finished = true) := by
  obtain ⟨hdisj, hiff, hevok⟩ := h
  rcases hdisj with hopn | hcl
  · have hf : st.finished = false := by
      cases hf : st.finished with
      | true => rw [← hiff] at hf; rw [hf] at hopn; cases hopn
      | false => rfl
    have hInv1 : Inv (flushBuffer st).1
        { evs := ctl.evs ++ (flushBuffer st).2, st := CtlSt.opn } := by
      refine ⟨Or.inl rfl, ?_, ?_⟩
      · constructor
        · intro hx; cases hx
        · intro hx; rw [flushBuffer_finished, hf] at hx; cases hx
      · rw [flushBuffer_finished, hf]
        rw [hf] at hevok
        simp only [EvOk] at hevok ⊢
        rw [noFinish_append, hevok, flushBuffer_noFinish]; rfl
    have hrun := finishStreamRun_good (flushBuffer st).1
      { evs := ctl.evs ++ (flushBuffer st).2, st := CtlSt.opn }
      (finishReasonOf st fr) hInv1
    simp only [processFinish, enqList, hopn]
    exact ⟨hrun.1, fun _ => hrun.2.2⟩
  · have hf : st.finished = true := hiff.mp hcl
    have hfl : (flushBuffer st).1.finished = true := by
      rw [flushBuffer_finished]; exact hf
    cases hfe : (flushBuffer st).2.isEmpty with
    | true =>
      simp only [processFinish, enqList, hcl, hfe, finishStreamRun, hfl]
      refine ⟨⟨Or.inr hcl, ?_, ?_⟩, by first | trivial | exact fun _ => hfl⟩
      · first
        | trivial
        | (rw [hfl]; exact ⟨fun _ => rfl, fun _ => hcl⟩)
      · first
        | (rw [hfl]; rw [hf] at hevok; exact hevok)
        | (rw [hf] at hevok; exact hevok)
    | false =>
      simp only [processFinish, enqList, hcl, hfe]
      refine ⟨⟨Or.inr hcl, ?_, ?_⟩, by first | trivial | exact fun _ => hfl⟩
      · first
        | trivial
        | (rw [hfl]; exact ⟨fun _ => rfl, fun _ => hcl⟩)
      · first
        | (rw [hfl]; rw [hf] at hevok; exact hevok)
        | (rw [hf] at hevok; exact hevok)

lemma runChunks_good : ∀ (chunks : List UpChunk) (st : StState) (ctl : Ctl),
    Inv st ctl →
    Inv (runChunks st ctl chunks).1 (runChunks st ctl chunks).2.1 ∧
    ((runChunks st ctl chunks).2.2 = false →
      (runChunks st ctl chunks).1.finished = true) := by
  intro chunks
  induction chunks with
  | nil =>
    intro st ctl h
    exact ⟨h, fun hx => Bool.noConfusion hx⟩
  | cons ch r ih =>
    intro st ctl h
    obtain ⟨hdisj, hiff, hevok⟩ := h
    cases hch : ch.hasChoice with
    | false =>
      simp only [runChunks, hch]
      exact ih st ctl ⟨hdisj, hiff, hevok⟩
    | true =>
      rcases hdisj with hopn | hcl
      · have hf : st.finished = false := by
          cases hf : st.finished with
          | true => rw [← hiff] at hf; rw [hf] at hopn; cases hopn
          | false => rfl
        have hInv1 : Inv (contentStep st ch).1
            { evs := ctl.evs ++ (contentStep st ch).2, st := CtlSt.opn } := by
          refine ⟨Or.inl rfl, ?_, ?_⟩
          · constructor
            · intro hx; cases hx
            · intro hx; rw [contentStep_finished, hf] at hx; cases hx
          · rw [contentStep_finished, hf]
            rw [hf] at hevok
            simp only [EvOk] at hevok ⊢
            rw [noFinish_append, hevok, contentStep_noFinish]; rfl
        simp only [runChunks, hch, enqList, hopn]
        cases hfr : ch.finishReason with
        | none =>
          simp only [hfr]
          exact ih _ _ hInv1
        | some fr =>
          simp only [hfr]
          have hpf := processFinish_good (contentStep st ch).1
            { evs := ctl.evs ++ (contentStep st ch).2, st := CtlSt.opn } fr hInv1
          cases hok : (processFinish (contentStep st ch).1
              { evs := ctl.evs ++ (contentStep st ch).2, st := CtlSt.opn } fr).2.2 with
          | true =>
            simp only [hok]
            exact ih _ _ hpf.1
          | false =>
            simp only [hok]
            exact ⟨hpf.1, fun _ => hpf.2 hok⟩
      · have hf : st.finished = true := hiff.mp hcl
        have hInv1 : Inv (contentStep st ch).1 ctl := by
          refine ⟨Or.inr hcl, ?_, ?_⟩
          · rw [contentStep_finished]; exact hiff
          · rw [contentStep_finished]; exact hevok
        cases hce : (contentStep st ch).2.isEmpty with
        | false =>
          simp only [runChunks, hch, enqList, hcl, hce]
          refine ⟨⟨Or.inr hcl, ?_, ?_⟩, fun _ => ?_⟩
          · rw [contentStep_finished]; exact hiff
          · rw [contentStep_finished]; exact hevok
          · rw [contentStep_finished]; exact hf
        | true =>
          simp only [runChunks, hch, enqList, hcl, hce]
          cases hfr : ch.finishReason with
          | none =>
            simp only [hfr]
            exact ih _ _ hInv1
          | some fr =>
            simp only [hfr]
            have hpf := processFinish_good (contentStep st ch).1 ctl fr hInv1
            cases hok : (processFinish (contentStep st ch).1 ctl fr).2.2 with
            | true =>
              simp only [hok]
              exact ih _ _ hpf.1
            | false =>
              simp only [hok]
              exact ⟨hpf.1, fun _ => hpf.2 hok⟩

lemma noFinish_count : ∀ (evs : List Ev), noFinish evs = true → finishCount evs = 0 := by
  intro evs
  induction evs with
  | nil => intro h; rfl
  | cons a l ih =>
    intro h
    rw [noFinish, List.all_cons, Bool.and_eq_true] at h
    have ha : isFinishEv a = false := by
      cases hx : isFinishEv a with
      | false => rfl
      | true => rw [hx] at h; exact absurd h.1 (by decide)
    rw [finishCount, List.filter_cons, ha]
    simpa [finishCount] using ih h.2

lemma evokTrue_count (evs pre : List Ev) (r : String)
    (hevs : evs = pre ++ [Ev.finish r]) (hpre : noFinish pre = true) :
    finishCount evs = 1 := by
  have h1 : finishCount (pre ++ [Ev.finish r])
      = finishCount pre + finishCount [Ev.finish r] := by
    simp [finishCount, List.filter_append]
  rw [hevs, h1, noFinish_count pre hpre]
  rfl

lemma finish_last_aux : ∀ (pre A : List Ev) (g : Ev) (r : String) (post : List Ev),
    noFinish A = true → A ++ [g] = pre ++ Ev.finish r :: post → post = [] := by
  intro pre
  induction pre with
  | nil =>
    intro A g r post hA heq
    cases A with
    | nil =>
      rw [List.nil_append, List.nil_append] at heq
      exact ((List.cons.inj heq).2).symm
    | cons a A' =>
      rw [List.nil_append, List.cons_append] at heq
      have h1 := (List.cons.inj heq).1
      rw [noFinish, List.all_cons, Bool.and_eq_true] at hA
      rw [h1] at hA
      exact absurd hA.1 (by simp [isFinishEv])
  | cons p pre' ih =>
    intro A g r post hA heq
    cases A with
    | nil =>
      rw [List.nil_append, List.cons_append] at heq
      have h2 := (List.cons.inj heq).2
      have h3 := congrArg List.length h2
      simp at h3
      omega
    | cons a A' =>
      rw [List.cons_append, List.cons_append] at heq
      have h2 := (List.cons.inj heq).2
      rw [noFinish, List.all_cons, Bool.and_eq_true] at hA
      exact ih A' g r post hA.2 h2

lemma noFinish_no_decomp (evs pre : List Ev) (r : String) (post : List Ev)
    (h : noFinish evs = true) (heq : evs = pre ++ Ev.finish r :: post) : False := by
  rw [noFinish, List.all_eq_true] at h
  have hmem : Ev.finish r ∈ evs := by
    rw [heq]
    exact List.mem_append_right _ (List.mem_cons_self _ _)
  have := h (Ev.finish r) hmem
  simp [isFinishEv] at this

lemma ctlError_evs (c : Ctl) : (ctlError c).evs = c.evs := by
  cases hc : c.st <;> simp [ctlError, hc]

lemma ctlCloseFinally_evs (c : Ctl) : (ctlCloseFinally c).evs = c.evs := by
  cases hc : c.st <;> simp [ctlCloseFinally, hc]

lemma errExit_evs (st : StState) (ctl : Ctl) :
    (errExit st ctl).2.evs = ctl.evs := by
  cases hf : st.finished <;>
    simp [errExit, hf, ctlError_evs, ctlCloseFinally_evs]

lemma errExit_st_finished (st : StState) (ctl : Ctl) (hf : st.finished = true)
    (hcl : ctl.st = CtlSt.closed) : (errExit st ctl).2.st = CtlSt.closed := by
  simp [errExit, hf, ctlError, hcl]

lemma errExit_st_unfinished (st : StState) (ctl : Ctl) (hf : st.finished = false)
    (hopn : ctl.st = CtlSt.opn) : (errExit st ctl).2.st = CtlSt.errored := by
  simp [errExit, hf, ctlError, hopn, ctlCloseFinally]

/-- C3: for every execution of the doStream stream body, at most one finish
event is delivered, and exactly one on every execution without an upstream
error; no event follows the finish event; the output controller ends closed
or errored on every exit path; it ends errored only on executions with an
upstream error, and it does end errored (the error is surfaced, not
swallowed) whenever an upstream error occurs before any finish was
delivered. -/
theorem doStream_lifecycle (chunks : List UpChunk) (errAfter : Bool) :
    finishCount (runStream chunks errAfter).2.evs ≤ 1 ∧
    (∀ pre r post, (runStream chunks errAfter).2.evs = pre ++ Ev.finish r :: post →
      post = []) ∧
    (errAfter = false → finishCount (runStream chunks errAfter).2.evs = 1 ∧
      (runStream chunks errAfter).2.st = CtlSt.closed) ∧
    ((runStream chunks errAfter).2.st = CtlSt.closed ∨
      (runStream chunks errAfter).2.st = CtlSt.errored) ∧
    ((runStream chunks errAfter).2.st = CtlSt.errored → errAfter = true) ∧
    (errAfter = true → finishCount (runStream chunks errAfter).2.evs = 0 →
      (runStream chunks errAfter).2.st = CtlSt.errored) := by
  have inv0 : Inv initStState { evs := [Ev.streamStart], st := CtlSt.opn } := by
    refine ⟨Or.inl rfl, ?_, ?_⟩
    · constructor
      · intro hx; cases hx
      · intro hx; cases hx
    · exact rfl
  obtain ⟨⟨hdisj, hiff, hevok⟩, hko⟩ :=
    runChunks_good chunks initStState { evs := [Ev.streamStart], st := CtlSt.opn } inv0
  cases hok : (runChunks initStState { evs := [Ev.streamStart], st := CtlSt.opn }
      chunks).2.2 with
  | true =>
    cases errAfter with
    | false =>
      have hfs := finishStreamRun_good
        (runChunks initStState { evs := [Ev.streamStart], st := CtlSt.opn } chunks).1
        (runChunks initStState { evs := [Ev.streamStart], st := CtlSt.opn } chunks).2.1
        "stop" ⟨hdisj, hiff, hevok⟩
      obtain ⟨⟨hdisj1, hiff1, hevok1⟩, hok1, hfin1⟩ := hfs
      rw [hfin1] at hevok1
      simp only [EvOk] at hevok1
      obtain ⟨pre0, r0, hevs0, hpre0⟩ := hevok1
      have hres : runStream chunks false
          = ((finishStreamRun
              (runChunks initStState { evs := [Ev.streamStart], st := CtlSt.opn } chunks).1
              (runChunks initStState { evs := [Ev.streamStart], st := CtlSt.opn } chunks).2.1
              "stop").1,
             (finishStreamRun
              (runChunks initStState { evs := [Ev.streamStart], st := CtlSt.opn } chunks).1
              (runChunks initStState { evs := [Ev.streamStart], st := CtlSt.opn } chunks).2.1
              "stop").2.1) := by
        simp only [runStream, hok]
      rw [hres]
      have hcount := evokTrue_count _ pre0 r0 hevs0 hpre0
      have hclosed := hiff1.mpr hfin1
      refine ⟨?_, ?_, ?_, ?_, ?_, ?_⟩
      · rw [hcount]
      · intro pre r post heq
        refine finish_last_aux pre pre0 (Ev.finish r0) r post hpre0 ?_
        rw [← hevs0]
        exact heq
      · intro _; exact ⟨hcount, hclosed⟩
      · exact Or.inl hclosed
      · intro hx; rw [hclosed] at hx; cases hx
      · intro hx; cases hx
    | true =>
      have hres : runStream chunks true
          = errExit
              (runChunks initStState { evs := [Ev.streamStart], st := CtlSt.opn } chunks).1
              (runChunks initStState { evs := [Ev.streamStart], st := CtlSt.opn } chunks).2.1 := by
        simp only [runStream, hok]
      rw [hres]
      cases hfin : (runChunks initStState { evs := [Ev.streamStart], st := CtlSt.opn }
          chunks).1.finished with
      | true =>
        have hcl := hiff.mpr hfin
        rw [hfin] at hevok
        simp only [EvOk] at hevok
        obtain ⟨pre0, r0, hevs0, hpre0⟩ := hevok
        have hcount : finishCount (errExit
            (runChunks initStState { evs := [Ev.streamStart], st := CtlSt.opn } chunks).1
            (runChunks initStState { evs := [Ev.streamStart], st := CtlSt.opn } chunks).2.1).2.evs = 1 := by
          rw [errExit_evs]
          exact evokTrue_count _ pre0 r0 hevs0 hpre0
        have hst := errExit_st_finished _ _ hfin hcl
        refine ⟨?_, ?_, ?_, ?_, ?_, ?_⟩
        · rw [hcount]
        · intro pre r post heq
          rw [errExit_evs] at heq
          refine finish_last_aux pre pre0 (Ev.finish r0) r post hpre0 ?_
          rw [← hevs0]
          exact heq
        · intro hx; cases hx
        · exact Or.inl hst
        · intro _; rfl
        · intro _ hx; rw [hcount] at hx; cases hx
      | false =>
        have hopn : (runChunks initStState { evs := [Ev.streamStart], st := CtlSt.opn }
            chunks).2.1.st = CtlSt.opn := by
          rcases hdisj with h1 | h1
          · exact h1
          · rw [hiff.mp h1] at hfin; cases hfin
        rw [hfin] at hevok
        simp only [EvOk] at hevok
        have hst := errExit_st_unfinished _ _ hfin hopn
        refine ⟨?_, ?_, ?_, ?_, ?_, ?_⟩
        · rw [errExit_evs, noFinish_count _ hevok]
          exact Nat.zero_le 1
        · intro pre r post heq
          rw [errExit_evs] at heq
          exact (noFinish_no_decomp _ pre r post hevok heq).elim
        · intro hx; cases hx
        · exact Or.inr hst
        · intro _; rfl
        · intro _ _; exact hst
  | false =>
    have hfin := hko hok
    have hcl := hiff.mpr hfin
    rw [hfin] at hevok
    simp only [EvOk] at hevok
    obtain ⟨pre0, r0, hevs0, hpre0⟩ := hevok
    have hres : runStream chunks errAfter
        = errExit
            (runChunks initStState { evs := [Ev.streamStart], st := CtlSt.opn } chunks).1
            (runChunks initStState { evs := [Ev.streamStart], st := CtlSt.opn } chunks).2.1 := by
      cases errAfter <;> simp only [runStream, hok]
    rw [hres]
    have hcount : finishCount (errExit
        (runChunks initStState { evs := [Ev.streamStart], st := CtlSt.opn } chunks).1
        (runChunks initStState { evs := [Ev.streamStart], st := CtlSt.opn } chunks).2.1).2.evs = 1 := by
      rw [errExit_evs]
      exact evokTrue_count _ pre0 r0 hevs0 hpre0
    have hst := errExit_st_finished _ _ hfin hcl
    refine ⟨?_, ?_, ?_, ?_, ?_, ?_⟩
    · rw [hcount]
    · intro pre r post heq
      rw [errExit_evs] at heq
      refine finish_last_aux pre pre0 (Ev.finish r0) r post hpre0 ?_
      rw [← hevs0]
      exact heq
    · intro _; exact ⟨hcount, hst⟩
    · exact Or.inl hst
    · intro hx; rw [hst] at hx; cases hx
    · intro _ hx; rw [hcount] at hx; cases hx

/-- Tool-related stream events. -/
def isToolEv : Ev → Bool
  | .toolInputStart _ _ => true
  | .toolInputDelta _ _ => true
  | .toolInputEnd _ => true
  | .toolCall _ _ _ => true
  | _ => false

lemma textDeltasOf_emitTextDelta : ∀ (st : StState) (d : List Char),
    textDeltasOf (emitTextDelta st d).2 = d := by
  intro st d
  cases d with
  | nil => cases ht : st.textStarted <;> simp [emitTextDelta, textDeltasOf]
  | cons c cs =>
    cases ht : st.textStarted <;>
      simp [emitTextDelta, ht, textDeltasOf, List.isEmpty]

lemma noTool_emitTextDelta (st : StState) (d : List Char) :
    (emitTextDelta st d).2.all (fun e => !(isToolEv e)) = true := by
  cases hd : d.isEmpty <;> cases ht : st.textStarted <;>
    simp [emitTextDelta, hd, ht, isToolEv]

lemma textDeltasOf_append (a b : List Ev) :
    textDeltasOf (a ++ b) = textDeltasOf a ++ textDeltasOf b := by
  simp [textDeltasOf, List.filterMap_append]

lemma textDeltasOf_flushBuffer (st : StState) :
    textDeltasOf (flushBuffer st).2 = st.det.buffer := by
  cases hb : st.det.buffer with
  | nil => simp [flushBuffer, hb, textDeltasOf]
  | cons c cs =>
    simp only [flushBuffer, hb, List.isEmpty]
    exact textDeltasOf_emitTextDelta st (c :: cs)

/-- C6 (amended): on an upstream completion signal inside a live stream the
whole remaining detector buffer is flushed as text deltas, exactly one
finish event follows everything already delivered plus that flush and the
text-end of any open text span, the controller is then closed, and the
finish reason is computed with abort taking priority: "other" on abort,
otherwise "tool-calls" exactly when a re-parse of the full accumulated text
resolves at least one call, else "stop". -/
theorem finish_event_spec (st : StState) (ctl : Ctl) (fr : String)
    (hfin : st.finished = false) (hctl : ctl.st = CtlSt.opn) :
    (processFinish st ctl fr).2.1.evs
      = ctl.evs ++ (flushBuffer st).2
          ++ (emitTextEndIfNeeded (flushBuffer st).1).2
          ++ [Ev.finish (finishReasonOf st fr)] ∧
    textDeltasOf (flushBuffer st).2 = st.det.buffer ∧
    (processFinish st ctl fr).2.1.st = CtlSt.closed ∧
    (processFinish st ctl fr).2.2 = true ∧
    (fr = "abort" → finishReasonOf st fr = "other") ∧
    (fr ≠ "abort" →
      finishReasonOf st fr
        = if (parseJsonFunctionCalls (String.mk st.accText)).toolCalls.isEmpty
          then "stop" else "tool-calls") := by
  have hfl : (flushBuffer st).1.finished = false := by
    rw [flushBuffer_finished]; exact hfin
  simp only [processFinish, enqList, hctl, finishStreamRun, hfl, ctlClose]
  refine ⟨?_, textDeltasOf_flushBuffer st, by trivial, by trivial, ?_, ?_⟩
  · simp [List.append_assoc]
  · intro h; simp [finishReasonOf, h]
  · intro h; simp [finishReasonOf, h]

theorem finish_event_spec_witness :
    ({ initStState with
        accText := "hi".data,
        det := { buffer := "hi".data, inFence := false, fenceAcc := [] } } : StState).finished
        = false ∧
    ({ evs := [Ev.streamStart], st := CtlSt.opn } : Ctl).st = CtlSt.opn ∧
    (processFinish
        { initStState with
          accText := "hi".data,
          det := { buffer := "hi".data, inFence := false, fenceAcc := [] } }
        { evs := [Ev.streamStart], st := CtlSt.opn } "abort").2.1.st = CtlSt.closed :=
  ⟨rfl, rfl,
    (finish_event_spec
      { initStState with
        accText := "hi".data,
        det := { buffer := "hi".data, inFence := false, fenceAcc := [] } }
      { evs := [Ev.streamStart], st := CtlSt.opn } "abort" rfl rfl).2.2.1⟩

/-- C6 counterexample: a stream that resolves a tool call (a tool-call
event is delivered) and whose backend then reports an abort gets finish
reason "other", not "tool-calls": the abort check takes priority over the
tool-call check, against the claim's ordering. -/
theorem finishReason_abortPriority_counterexample :
    ((runStream
        [{ hasChoice := true,
           content := "```tool_call\n\x7b\"name\":\"f\",\"arguments\":\x7b\x7d\x7d\n```",
           finishReason := some "abort" }] false).2.evs.filter isToolEv).length = 4 ∧
    (runStream
        [{ hasChoice := true,
           content := "```tool_call\n\x7b\"name\":\"f\",\"arguments\":\x7b\x7d\x7d\n```",
           finishReason := some "abort" }] false).2.evs.filter isFinishEv
      = [Ev.finish "other"] := by
  constructor
  · decide
  · decide

lemma textDeltasOf_closeFallback (st : StState) (cf after : List Char) :
    textDeltasOf (closeFallback st cf after).2 = cf ++ after := by
  have h : (closeFallback st cf after).2
      = (emitTextDelta st cf).2 ++ (emitTextDelta (emitTextDelta st cf).1 after).2 := rfl
  rw [h, textDeltasOf_append, textDeltasOf_emitTextDelta, textDeltasOf_emitTextDelta]

lemma noTool_closeFallback (st : StState) (cf after : List Char) :
    (closeFallback st cf after).2.all (fun e => !(isToolEv e)) = true := by
  have h : (closeFallback st cf after).2
      = (emitTextDelta st cf).2 ++ (emitTextDelta (emitTextDelta st cf).1 after).2 := rfl
  rw [h, List.all_append, noTool_emitTextDelta, noTool_emitTextDelta]
  rfl

/-- C7 (amended): when a fence closes on content that resolves to zero tool
calls, and no tool-input events were already streamed for this fence (the
start event was never emitted), the close branch emits the fenced content
without its markers, plus any text after the fence, as ordinary text
deltas, emits no tool event, and resets the fence state so the stream
continues. -/
theorem fence_fallback_text (st : StState) (cf safe after : List Char)
    (hse : st.fence.startEmitted = false)
    (hparse : (parseJsonFunctionCalls (String.mk cf)).toolCalls.isEmpty = true) :
    textDeltasOf (closeBranch st cf safe after).2 = cf ++ after ∧
    (closeBranch st cf safe after).2.all (fun e => !(isToolEv e)) = true ∧
    (closeBranch st cf safe after).1.insideFence = false ∧
    (closeBranch st cf safe after).1.currentId = none := by
  have htake : (parseJsonFunctionCalls (String.mk cf)).toolCalls.take 1 = [] := by
    rw [List.isEmpty_iff] at hparse
    rw [hparse]
    rfl
  cases hid : st.currentId with
  | some cid =>
    have hpre : fenceClosePre st.fence safe
        = ({ acc := st.fence.acc ++ safe, streamedLen := st.fence.streamedLen,
             startEmitted := false }, []) := by
      simp [fenceClosePre, hse]
    simp only [closeBranch, hid, hpre, htake, List.map_nil, List.nil_append]
    refine ⟨textDeltasOf_closeFallback _ _ _, noTool_closeFallback _ _ _, ?_, ?_⟩
    · rfl
    · rfl
  | none =>
    simp only [closeBranch, hid, htake]
    exact ⟨textDeltasOf_closeFallback _ _ _, noTool_closeFallback _ _ _, rfl, rfl⟩

theorem fence_fallback_text_witness :
    ({ initStState with currentId := some "call_0" } : StState).fence.startEmitted = false ∧
    (parseJsonFunctionCalls (String.mk "not json".data)).toolCalls.isEmpty = true ∧
    textDeltasOf
        (closeBranch { initStState with currentId := some "call_0" }
          "not json".data [] [] ).2 = "not json".data ++ [] :=
  ⟨rfl, by decide,
    (fence_fallback_text { initStState with currentId := some "call_0" }
      "not json".data [] [] rfl (by decide)).1⟩

/-- C7 counterexample: a fence whose content "not json" fails to resolve is
re-emitted as text WITHOUT its fence markers: the delivered text deltas
concatenate to "not json", not to the claimed full marker-wrapped block,
while the stream still finishes normally and closes. -/
theorem fence_fallback_counterexample :
    textDeltasOf (runStream
        [{ hasChoice := true,
           content := "```tool_call\nnot json\n```",
           finishReason := some "stop" }] false).2.evs = "not json".data ∧
    ¬ textDeltasOf (runStream
        [{ hasChoice := true,
           content := "```tool_call\nnot json\n```",
           finishReason := some "stop" }] false).2.evs
        = "```tool_call\nnot json\n```".data ∧
    (runStream
        [{ hasChoice := true,
           content := "```tool_call\nnot json\n```",
           finishReason := some "stop" }] false).2.st = CtlSt.closed := by
  refine ⟨by decide, by decide, by decide⟩

theorem doStream_lifecycle_witness :
    finishCount (runStream [] false).2.evs = 1 ∧
    (runStream [] false).2.st = CtlSt.closed :=
  (doStream_lifecycle [] false).2.2.1 rfl

/-- Tool-call events of the WebLLM stream. -/
def isToolCallEv : Ev → Bool
  | .toolCall _ _ _ => true
  | _ => false

lemma filterToolCall_mapFEv (id : String) (l : List FEv) :
    (l.map (mapFEv id)).filter isToolCallEv = [] := by
  induction l with
  | nil => rfl
  | cons a l ih => cases a <;> simp [mapFEv, isToolCallEv, List.filter_cons, ih]

lemma filterToolCall_emitTextDelta (st : StState) (d : List Char) :
    (emitTextDelta st d).2.filter isToolCallEv = [] := by
  cases hd : d.isEmpty <;> cases ht : st.textStarted <;>
    simp [emitTextDelta, hd, ht, isToolCallEv]

lemma filterToolCall_closeFallback (st : StState) (cf after : List Char) :
    (closeFallback st cf after).2.filter isToolCallEv = [] := by
  have h : (closeFallback st cf after).2
      = (emitTextDelta st cf).2 ++ (emitTextDelta (emitTextDelta st cf).1 after).2 := rfl
  rw [h, List.filter_append, filterToolCall_emitTextDelta,
    filterToolCall_emitTextDelta]
  rfl

lemma filterToolCall_closeWithCall (st : StState) (call : ParsedToolCall)
    (after : List Char) :
    ∃ id, (closeWithCall st call after).2.filter isToolCallEv
        = [Ev.toolCall id call.toolName (jstr call.args)] := by
  cases hid : st.currentId with
  | some cid =>
    refine ⟨cid, ?_⟩
    simp [closeWithCall, hid, List.filter_append, filterToolCall_mapFEv,
      filterToolCall_emitTextDelta, isToolCallEv, List.filter_cons]
  | none =>
    refine ⟨call.toolCallId, ?_⟩
    cases hj : (jstr call.args).isEmpty <;>
      simp [closeWithCall, hid, hj, List.filter_append,
        filterToolCall_emitTextDelta, isToolCallEv, List.filter_cons]

lemma closeBranch_toolCalls_head (st : StState) (cf safe after : List Char)
    (call : ParsedToolCall) (rest : List ParsedToolCall)
    (hp : (parseJsonFunctionCalls (String.mk cf)).toolCalls = call :: rest) :
    ∃ id, (closeBranch st cf safe after).2.filter isToolCallEv
        = [Ev.toolCall id call.toolName (jstr call.args)] := by
  have htake : (parseJsonFunctionCalls (String.mk cf)).toolCalls.take 1 = [call] := by
    rw [hp]; rfl
  cases hid : st.currentId with
  | some cid =>
    simp only [closeBranch, hid, htake]
    show ∃ id,
        ((fenceClosePre st.fence safe).2.map (mapFEv cid) ++
          (closeWithCall
            { st with currentId := some cid,
                      fence := (fenceClosePre st.fence safe).1 }
            call after).2).filter isToolCallEv = _
    rw [List.filter_append, filterToolCall_mapFEv, List.nil_append]
    exact filterToolCall_closeWithCall _ call after
  | none =>
    simp only [closeBranch, hid, htake]
    exact filterToolCall_closeWithCall _ call after

lemma closeBranch_toolCalls_le (st : StState) (cf safe after : List Char) :
    ((closeBranch st cf safe after).2.filter isToolCallEv).length ≤ 1 := by
  cases hp : (parseJsonFunctionCalls (String.mk cf)).toolCalls with
  | nil =>
    have htake : (parseJsonFunctionCalls (String.mk cf)).toolCalls.take 1 = [] := by
      rw [hp]; rfl
    cases hid : st.currentId with
    | some cid =>
      simp only [closeBranch, hid, htake]
      show (((fenceClosePre st.fence safe).2.map (mapFEv cid) ++
          (closeFallback
            { st with currentId := some cid,
                      fence := (fenceClosePre st.fence safe).1 }
            cf after).2).filter isToolCallEv).length ≤ 1
      rw [List.filter_append, filterToolCall_mapFEv, filterToolCall_closeFallback]
      simp
    | none =>
      simp only [closeBranch, hid, htake]
      rw [filterToolCall_closeFallback]
      simp
  | cons call rest =>
    obtain ⟨id, hfc⟩ := closeBranch_toolCalls_head st cf safe after call rest hp
    rw [hfc]
    simp

/-- C5 as amended: both WebLLM paths surface only the first parsed tool
call — the doGenerate path surfaces at most one, and the doStream close
branch emits at most one tool-call event per fence, namely the head of the
parsed calls — while the built-in Prompt API polyfill paths
(doGenerateWithTools and doStreamWithTools) surface every parsed tool
call. -/
theorem toolCall_selection_per_path :
    (∀ (respJson : Bool) (raw finishRaw : String),
        countToolCallsW (doGenerateContent respJson raw finishRaw).1 ≤ 1) ∧
    (∀ (st : StState) (cf safe after : List Char),
        ((closeBranch st cf safe after).2.filter isToolCallEv).length ≤ 1) ∧
    (∀ (st : StState) (cf safe after : List Char) (call : ParsedToolCall)
        (rest : List ParsedToolCall),
        (parseJsonFunctionCalls (String.mk cf)).toolCalls = call :: rest →
        ∃ id, (closeBranch st cf safe after).2.filter isToolCallEv
            = [Ev.toolCall id call.toolName (jstr call.args)]) ∧
    (∀ (now : Nat) (text : String) (pr : ParsedToolCallV2),
        parseToolCallRequest now text = some pr →
        countToolCallsV2 (doGenerateWithToolsContent now text).1
          = pr.toolCalls.length) ∧
    (∀ (now : Nat) (response : String) (pr : ParsedToolCallV2),
        parseToolCallRequest now response = some pr →
        countToolCallEvsV2 (doStreamWithToolsEvents now response)
          = pr.toolCalls.length) := by
  refine ⟨?_, closeBranch_toolCalls_le, closeBranch_toolCalls_head, ?_, ?_⟩
  · intro respJson raw finishRaw
    unfold doGenerateContent
    by_cases h : (parseJsonFunctionCalls raw).toolCalls.isEmpty = true
    · simp [h, countToolCallsW]
    · simp only [h, if_false, Bool.false_eq_true]
      cases hl : (parseJsonFunctionCalls raw).toolCalls with
      | nil => rw [hl] at h; simp at h
      | cons a r =>
        by_cases he : (parseJsonFunctionCalls raw).textContent.isEmpty = true <;>
          simp [he, countToolCallsW, List.filter_cons, List.filter_append]
  · intro now text pr hp
    unfold doGenerateWithToolsContent
    rw [hp]
    exact countToolCallsV2_map pr.toolCalls
  · intro now response pr hp
    unfold doStreamWithToolsEvents
    rw [hp]
    simp only [countToolCallEvsV2, List.filter_cons, List.filter_append]
    have := countToolCallEvsV2_map pr.toolCalls
    simp only [countToolCallEvsV2] at this
    simp [this, List.filter]

/-- Witness for the amended C5 at concrete inputs: at most one tool call
surfaced by the WebLLM doGenerate path; exactly one tool-call event (for
the first parsed call, named a) emitted by the WebLLM streaming close
branch on a fence parsing to TWO calls; two calls surfaced by each
built-in path on a two-call payload. -/
theorem toolCall_selection_per_path_witness :
    countToolCallsW (doGenerateContent false "plain" "stop").1 ≤ 1 ∧
    (∃ id, (closeBranch initStState
        "[\x7b\"name\":\"a\",\"arguments\":\x7b\x7d\x7d,\x7b\"name\":\"b\",\"arguments\":\x7b\x7d\x7d]".data
        [] []).2.filter isToolCallEv
        = [Ev.toolCall id "a" (jstr (JVal.obj []))]) ∧
    countToolCallsV2 (doGenerateWithToolsContent 7
        "\x7b\"tool_calls\":[\x7b\"name\":\"a\",\"input\":\x7b\x7d\x7d,\x7b\"name\":\"b\",\"input\":\x7b\x7d\x7d]\x7d").1 = 2 ∧
    countToolCallEvsV2 (doStreamWithToolsEvents 7
        "\x7b\"tool_calls\":[\x7b\"name\":\"a\",\"input\":\x7b\x7d\x7d,\x7b\"name\":\"b\",\"input\":\x7b\x7d\x7d]\x7d") = 2 := by
  refine ⟨toolCall_selection_per_path.1 false "plain" "stop", ?_, ?_, ?_⟩
  · exact toolCall_selection_per_path.2.2.1 initStState
      "[\x7b\"name\":\"a\",\"arguments\":\x7b\x7d\x7d,\x7b\"name\":\"b\",\"arguments\":\x7b\x7d\x7d]".data
      [] []
      { toolCallId := "", toolName := "a", args := JVal.obj [] }
      [{ toolCallId := "", toolName := "b", args := JVal.obj [] }] (by rfl)
  · rw [toolCall_selection_per_path.2.2.2.1 7 _ _ (by rfl)]
    rfl
  · rw [toolCall_selection_per_path.2.2.2.2 7 _ _ (by rfl)]
    rfl

end BuiltInAI